import Mathlib

/-!
Verification of the markdown-deck slide application (`src/App.tsx`).

The development shallowly embeds the slide compiler (`parseSlides`,
`extractTitle`, note extraction), the placeholder-emitting HTML renderer
(`markdownToHtml` / the custom `renderer.code`), the percent-encoding
round trip (`encodeURIComponent` / `decodeURIComponent` /
`decodeDatasetValue`), the DOM enhancement pipeline (`enhanceCodeBlocks`,
`shouldSkipMathNode`, `enhanceMath`, the deferred mermaid stage of
`SlideRenderer`), the cross-context synchronisation handler
(`channel.onmessage`, `safeParseSharedState`), the deep-link codec
(`readHashState` and the hash-writing effect) and the navigation clamps
(`clamp`, `goToSlide`, `nextSlide`, `previousSlide`).

JavaScript numbers are modelled as `Int` (the program only ever computes
with integral values on the modelled paths); JavaScript strings are Lean
`String`s, with `encodeURIComponent` expanding each character to its
UTF-8 bytes exactly as the browser primitive does.
-/

namespace MD

/-! ## Basic JavaScript primitives -/

/-- The ASCII whitespace characters matched by the JavaScript `\s` class
(the Unicode space characters never occur on the modelled paths). -/
def isJsWs (c : Char) : Bool :=
  c = ' ' || c = '\t' || c = '\n' || c = '\r' || c = '\x0b' || c = '\x0c'

/-- `String.prototype.trim` restricted to the character class above. -/
def jsTrimChars (l : List Char) : List Char :=
  ((l.dropWhile isJsWs).reverse.dropWhile isJsWs).reverse

/-- JavaScript `value.trim()`. -/
def jsTrim (s : String) : String :=
  String.mk (jsTrimChars s.data)

/-- `toLowerCase` on ASCII, character by character (as
`String.toLowerCase` behaves on the language tags and theme ids this
program compares). -/
def jsToLower (s : String) : String :=
  String.mk (s.data.map Char.toLower)

/-- `clamp` from `App.tsx` lines 279-287. -/
def clamp (value min max : Int) : Int :=
  if value < min then min
  else if value > max then max
  else value

/-! ## Themes (`THEME_CONFIG`, lines 31 and 76-112) -/

/-- The five theme identifiers that key `THEME_CONFIG`. -/
inductive ThemeId where
  | minimal
  | corporate
  | hacker
  | academic
  | vibrant
deriving DecidableEq, Repr

/-- The string key of a theme identifier. -/
def ThemeId.key : ThemeId → String
  | .minimal => "minimal"
  | .corporate => "corporate"
  | .hacker => "hacker"
  | .academic => "academic"
  | .vibrant => "vibrant"

/-- The membership test `s in THEME_CONFIG`, returning the identified theme. -/
def themeOfString (s : String) : Option ThemeId :=
  if s = "minimal" then some .minimal
  else if s = "corporate" then some .corporate
  else if s = "hacker" then some .hacker
  else if s = "academic" then some .academic
  else if s = "vibrant" then some .vibrant
  else none

/-- `DEFAULT_THEME_ID` (line 69). -/
def DEFAULT_THEME_ID : ThemeId := .corporate

theorem themeOfString_key (t : ThemeId) : themeOfString t.key = some t := by
  cases t <;> rfl

/-! ## DOM trees

A minimal model of the document subtrees the enhancement pipeline
mutates: an element carries its tag name (upper-case, as `tagName`
reports for HTML elements), its class list and its attributes (stored
with the values the DOM parser yields, i.e. already entity-unescaped). -/

inductive DomNode where
  | text (s : String)
  | elem (tag : String) (classes : List String) (attrs : List (String × String))
      (children : List DomNode)

/-! ## Percent encoding

`markdownToHtml` (lines 363-382) smuggles fence content through data
attributes with `encodeURIComponent`; `decodeDatasetValue` (lines
336-345) recovers it with `decodeURIComponent`, falling back to the raw
value when decoding throws.  Both browser primitives are modelled at
full fidelity over Unicode strings: encoding expands every character
outside the unreserved set to the percent-encoded bytes of its UTF-8
encoding, and decoding reassembles UTF-8 byte sequences, rejecting
(`none`, the model of a thrown `URIError`) malformed hex, truncated
sequences, overlong forms, surrogates and out-of-range code points. -/

/-- The characters `encodeURIComponent` leaves unescaped:
`A-Z a-z 0-9 - _ . ! ~ * ' ( )`. -/
def isUnreservedChar (c : Char) : Bool :=
  ('A' ≤ c && c ≤ 'Z') || ('a' ≤ c && c ≤ 'z') || ('0' ≤ c && c ≤ '9') ||
  c = '-' || c = '_' || c = '.' || c = '!' || c = '~' || c = '*' ||
  c = Char.ofNat 39 || c = '(' || c = ')'

/-- Upper-case hexadecimal digit, as the browser emits in `%XX` escapes. -/
def hexDigitChar (n : Nat) : Char :=
  if n < 10 then Char.ofNat (48 + n) else Char.ofNat (55 + n)

/-- The `%XX` escape of one byte. -/
def percentEncodeByte (b : Nat) : List Char :=
  ['%', hexDigitChar (b / 16), hexDigitChar (b % 16)]

/-- The UTF-8 bytes of the code point `v`. -/
def utf8Bytes (v : Nat) : List Nat :=
  if v < 0x80 then [v]
  else if v < 0x800 then [0xC0 + v / 64, 0x80 + v % 64]
  else if v < 0x10000 then [0xE0 + v / 4096, 0x80 + v / 64 % 64, 0x80 + v % 64]
  else [0xF0 + v / 262144, 0x80 + v / 4096 % 64, 0x80 + v / 64 % 64, 0x80 + v % 64]

/-- How `encodeURIComponent` renders a single character. -/
def encodeChar (c : Char) : List Char :=
  if isUnreservedChar c then [c]
  else (utf8Bytes c.toNat).flatMap percentEncodeByte

/-- `encodeURIComponent` (used at lines 367). -/
def jsEncodeURIComponent (s : String) : String :=
  String.mk (s.data.flatMap encodeChar)

/-- The numeric value of one hexadecimal digit (both cases accepted,
as `decodeURIComponent` does). -/
def hexCharVal (c : Char) : Option Nat :=
  if '0' ≤ c && c ≤ '9' then some (c.toNat - 48)
  else if 'A' ≤ c && c ≤ 'F' then some (c.toNat - 55)
  else if 'a' ≤ c && c ≤ 'f' then some (c.toNat - 87)
  else none

/-- Read one `%XX` escape from the head of the input. -/
def takePct : List Char → Option (Nat × List Char)
  | '%' :: h1 :: h2 :: rest =>
    match hexCharVal h1, hexCharVal h2 with
    | some hv, some lv => some (hv * 16 + lv, rest)
    | _, _ => none
  | _ => none

/-- Read one `%XX` escape that must be a UTF-8 continuation byte,
returning its 6 payload bits. -/
def takeCont (l : List Char) : Option (Nat × List Char) :=
  match takePct l with
  | some (b, rest) => if 0x80 ≤ b ∧ b < 0xC0 then some (b - 0x80, rest) else none
  | none => none

theorem takePct_length {l : List Char} {b : Nat} {r : List Char}
    (h : takePct l = some (b, r)) : r.length + 3 = l.length := by
  unfold takePct at h
  split at h
  · split at h
    · simp only [Option.some.injEq, Prod.mk.injEq] at h
      simp [← h.2, List.length]
    · exact absurd h (by simp)
  · exact absurd h (by simp)

theorem takeCont_length {l : List Char} {b : Nat} {r : List Char}
    (h : takeCont l = some (b, r)) : r.length + 3 = l.length := by
  unfold takeCont at h
  split at h
  next b' rest heq =>
    split at h
    · simp only [Option.some.injEq, Prod.mk.injEq] at h
      exact h.2 ▸ takePct_length heq
    · exact absurd h (by simp)
  next => exact absurd h (by simp)

/-- `decodeURIComponent` on a character list: literal characters pass
through, `%` starts a percent-encoded UTF-8 byte sequence; any
malformed input yields `none` (a thrown `URIError`). -/
def decodePercent : List Char → Option (List Char)
  | [] => some []
  | c :: rest =>
    if c = '%' then
      match hp : takePct (c :: rest) with
      | none => none
      | some (b0, r1) =>
        if b0 < 0x80 then (decodePercent r1).map (Char.ofNat b0 :: ·)
        else if b0 < 0xC2 then none
        else if b0 < 0xE0 then
          match hc : takeCont r1 with
          | none => none
          | some (x1, r2) =>
            (decodePercent r2).map (Char.ofNat ((b0 - 0xC0) * 64 + x1) :: ·)
        else if b0 < 0xF0 then
          match hc : takeCont r1 with
          | none => none
          | some (x1, r2) =>
            match hc2 : takeCont r2 with
            | none => none
            | some (x2, r3) =>
              if (b0 - 0xE0) * 4096 + x1 * 64 + x2 < 0x800 then none
              else if 0xD800 ≤ (b0 - 0xE0) * 4096 + x1 * 64 + x2 ∧
                  (b0 - 0xE0) * 4096 + x1 * 64 + x2 < 0xE000 then none
              else (decodePercent r3).map
                (Char.ofNat ((b0 - 0xE0) * 4096 + x1 * 64 + x2) :: ·)
        else if b0 < 0xF5 then
          match hc : takeCont r1 with
          | none => none
          | some (x1, r2) =>
            match hc2 : takeCont r2 with
            | none => none
            | some (x2, r3) =>
              match hc3 : takeCont r3 with
              | none => none
              | some (x3, r4) =>
                if (b0 - 0xF0) * 262144 + x1 * 4096 + x2 * 64 + x3 < 0x10000 then none
                else if 0x110000 ≤ (b0 - 0xF0) * 262144 + x1 * 4096 + x2 * 64 + x3 then
                  none
                else (decodePercent r4).map
                  (Char.ofNat ((b0 - 0xF0) * 262144 + x1 * 4096 + x2 * 64 + x3) :: ·)
        else none
    else (decodePercent rest).map (c :: ·)
termination_by l => l.length
decreasing_by
  · have h1 := takePct_length hp
    simp only [List.length_cons] at h1 ⊢; omega
  · have h1 := takePct_length hp; have h2 := takeCont_length hc
    simp only [List.length_cons] at h1 h2 ⊢; omega
  · have h1 := takePct_length hp; have h2 := takeCont_length hc
    have h3 := takeCont_length hc2
    simp only [List.length_cons] at h1 h2 h3 ⊢; omega
  · have h1 := takePct_length hp; have h2 := takeCont_length hc
    have h3 := takeCont_length hc2; have h4 := takeCont_length hc3
    simp only [List.length_cons] at h1 h2 h3 h4 ⊢; omega
  · simp only [List.length_cons]; omega

/-- `decodeURIComponent` (line 341). -/
def jsDecodeURIComponent (s : String) : Option String :=
  (decodePercent s.data).map String.mk

/-- `decodeDatasetValue` (lines 336-345): empty/absent values give `""`,
a decoding failure returns the raw value unchanged. -/
def decodeDatasetValue (v : Option String) : String :=
  match v with
  | none => ""
  | some s =>
    if s = "" then ""
    else
      match jsDecodeURIComponent s with
      | some d => d
      | none => s

theorem hexCharVal_hexDigitChar : ∀ n < 16, hexCharVal (hexDigitChar n) = some n := by
  decide

theorem takePct_encode (b : Nat) (hb : b < 256) (rest : List Char) :
    takePct (percentEncodeByte b ++ rest) = some (b, rest) := by
  have h1 := hexCharVal_hexDigitChar (b / 16) (by omega)
  have h2 := hexCharVal_hexDigitChar (b % 16) (by omega)
  simp only [percentEncodeByte, List.cons_append, List.nil_append, takePct, h1, h2]
  have : b / 16 * 16 + b % 16 = b := by omega
  rw [this]

theorem takeCont_encode (b : Nat) (hb1 : 0x80 ≤ b) (hb2 : b < 0xC0) (rest : List Char) :
    takeCont (percentEncodeByte b ++ rest) = some (b - 0x80, rest) := by
  unfold takeCont
  rw [takePct_encode b (by omega) rest]
  simp only
  rw [if_pos ⟨hb1, hb2⟩]

theorem char_toNat_valid (c : Char) :
    c.toNat < 0xD800 ∨ (0xDFFF < c.toNat ∧ c.toNat < 0x110000) :=
  c.valid

theorem decodePercent_encodeChar (c : Char) (rest : List Char) :
    decodePercent (encodeChar c ++ rest) = (decodePercent rest).map (c :: ·) := by
  by_cases hu : isUnreservedChar c
  · have hne : c ≠ '%' := by
      intro h
      rw [h] at hu
      exact absurd hu (by decide)
    simp only [encodeChar, if_pos hu, List.cons_append, List.nil_append]
    rw [decodePercent]
    rw [if_neg hne]
  · simp only [encodeChar, if_neg hu]
    have hv := char_toNat_valid c
    by_cases h1 : c.toNat < 0x80
    · simp only [utf8Bytes, if_pos h1, List.flatMap_cons, List.flatMap_nil,
        List.append_nil]
      have hpe : percentEncodeByte c.toNat ++ rest =
          '%' :: hexDigitChar (c.toNat / 16) :: hexDigitChar (c.toNat % 16) :: rest := rfl
      rw [hpe, decodePercent, if_pos rfl, ← hpe, takePct_encode c.toNat (by omega) rest]
      simp only [if_pos h1, Char.ofNat_toNat]
    · by_cases h2 : c.toNat < 0x800
      · simp only [utf8Bytes, if_neg h1, if_pos h2, List.flatMap_cons, List.flatMap_nil,
          List.append_nil, List.append_assoc]
        have hpe : percentEncodeByte (0xC0 + c.toNat / 64) ++
            (percentEncodeByte (0x80 + c.toNat % 64) ++ rest) =
            '%' :: hexDigitChar ((0xC0 + c.toNat / 64) / 16) ::
              hexDigitChar ((0xC0 + c.toNat / 64) % 16) ::
              (percentEncodeByte (0x80 + c.toNat % 64) ++ rest) := rfl
        rw [hpe, decodePercent, if_pos rfl, ← hpe,
          takePct_encode (0xC0 + c.toNat / 64) (by omega)]
        have e1 : ¬(0xC0 + c.toNat / 64 < 0x80) := by omega
        have e2 : ¬(0xC0 + c.toNat / 64 < 0xC2) := by omega
        have e3 : 0xC0 + c.toNat / 64 < 0xE0 := by omega
        have hval : (0xC0 + c.toNat / 64 - 0xC0) * 64 + (0x80 + c.toNat % 64 - 0x80) =
            c.toNat := by omega
        simp only [if_neg e1, if_neg e2, if_pos e3]
        split
        next heq =>
          simp [takeCont_encode (0x80 + c.toNat % 64) (by omega) (by omega) rest] at heq
        next x1 r2 heq =>
          rw [takeCont_encode (0x80 + c.toNat % 64) (by omega) (by omega) rest] at heq
          simp only [Option.some.injEq, Prod.mk.injEq] at heq
          obtain ⟨hx1, hr2⟩ := heq
          subst hx1; subst hr2
          simp only [hval, Char.ofNat_toNat]
      · by_cases h3 : c.toNat < 0x10000
        · simp only [utf8Bytes, if_neg h1, if_neg h2, if_pos h3, List.flatMap_cons,
            List.flatMap_nil, List.append_nil, List.append_assoc]
          have hpe : percentEncodeByte (0xE0 + c.toNat / 4096) ++
              (percentEncodeByte (0x80 + c.toNat / 64 % 64) ++
                (percentEncodeByte (0x80 + c.toNat % 64) ++ rest)) =
              '%' :: hexDigitChar ((0xE0 + c.toNat / 4096) / 16) ::
                hexDigitChar ((0xE0 + c.toNat / 4096) % 16) ::
                (percentEncodeByte (0x80 + c.toNat / 64 % 64) ++
                  (percentEncodeByte (0x80 + c.toNat % 64) ++ rest)) := rfl
          rw [hpe, decodePercent, if_pos rfl, ← hpe,
            takePct_encode (0xE0 + c.toNat / 4096) (by omega)]
          have e1 : ¬(0xE0 + c.toNat / 4096 < 0x80) := by omega
          have e2 : ¬(0xE0 + c.toNat / 4096 < 0xC2) := by omega
          have e3 : ¬(0xE0 + c.toNat / 4096 < 0xE0) := by omega
          have e4 : 0xE0 + c.toNat / 4096 < 0xF0 := by omega
          have hval : (0xE0 + c.toNat / 4096 - 0xE0) * 4096 +
              (0x80 + c.toNat / 64 % 64 - 0x80) * 64 + (0x80 + c.toNat % 64 - 0x80) =
              c.toNat := by omega
          have e5 : ¬(c.toNat < 0x800) := h2
          have e6 : ¬(0xD800 ≤ c.toNat ∧ c.toNat < 0xE000) := by omega
          simp only [if_neg e1, if_neg e2, if_neg e3, if_pos e4]
          split
          next heq =>
            simp [takeCont_encode (0x80 + c.toNat / 64 % 64) (by omega) (by omega)] at heq
          next x1 r2 heq =>
            rw [takeCont_encode (0x80 + c.toNat / 64 % 64) (by omega) (by omega)] at heq
            simp only [Option.some.injEq, Prod.mk.injEq] at heq
            obtain ⟨hx1, hr2⟩ := heq
            subst hx1; subst hr2
            split
            next heq2 =>
              simp [takeCont_encode (0x80 + c.toNat % 64) (by omega) (by omega) rest] at heq2
            next x2 r3 heq2 =>
              rw [takeCont_encode (0x80 + c.toNat % 64) (by omega) (by omega) rest] at heq2
              simp only [Option.some.injEq, Prod.mk.injEq] at heq2
              obtain ⟨hx2, hr3⟩ := heq2
              subst hx2; subst hr3
              simp only [hval, if_neg e5, if_neg e6, Char.ofNat_toNat]
        · simp only [utf8Bytes, if_neg h1, if_neg h2, if_neg h3, List.flatMap_cons,
            List.flatMap_nil, List.append_nil, List.append_assoc]
          have hpe : percentEncodeByte (0xF0 + c.toNat / 262144) ++
              (percentEncodeByte (0x80 + c.toNat / 4096 % 64) ++
                (percentEncodeByte (0x80 + c.toNat / 64 % 64) ++
                  (percentEncodeByte (0x80 + c.toNat % 64) ++ rest))) =
              '%' :: hexDigitChar ((0xF0 + c.toNat / 262144) / 16) ::
                hexDigitChar ((0xF0 + c.toNat / 262144) % 16) ::
                (percentEncodeByte (0x80 + c.toNat / 4096 % 64) ++
                  (percentEncodeByte (0x80 + c.toNat / 64 % 64) ++
                    (percentEncodeByte (0x80 + c.toNat % 64) ++ rest))) := rfl
          rw [hpe, decodePercent, if_pos rfl, ← hpe,
            takePct_encode (0xF0 + c.toNat / 262144) (by omega)]
          have e1 : ¬(0xF0 + c.toNat / 262144 < 0x80) := by omega
          have e2 : ¬(0xF0 + c.toNat / 262144 < 0xC2) := by omega
          have e3 : ¬(0xF0 + c.toNat / 262144 < 0xE0) := by omega
          have e4 : ¬(0xF0 + c.toNat / 262144 < 0xF0) := by omega
          have e5 : 0xF0 + c.toNat / 262144 < 0xF5 := by omega
          have hval : (0xF0 + c.toNat / 262144 - 0xF0) * 262144 +
              (0x80 + c.toNat / 4096 % 64 - 0x80) * 4096 +
              (0x80 + c.toNat / 64 % 64 - 0x80) * 64 + (0x80 + c.toNat % 64 - 0x80) =
              c.toNat := by omega
          have e6 : ¬(c.toNat < 0x10000) := h3
          have e7 : ¬(0x110000 ≤ c.toNat) := by omega
          simp only [if_neg e1, if_neg e2, if_neg e3, if_neg e4, if_pos e5]
          split
          next heq =>
            simp [takeCont_encode (0x80 + c.toNat / 4096 % 64) (by omega) (by omega)] at heq
          next x1 r2 heq =>
            rw [takeCont_encode (0x80 + c.toNat / 4096 % 64) (by omega) (by omega)] at heq
            simp only [Option.some.injEq, Prod.mk.injEq] at heq
            obtain ⟨hx1, hr2⟩ := heq
            subst hx1; subst hr2
            split
            next heq2 =>
              simp [takeCont_encode (0x80 + c.toNat / 64 % 64) (by omega) (by omega)] at heq2
            next x2 r3 heq2 =>
              rw [takeCont_encode (0x80 + c.toNat / 64 % 64) (by omega) (by omega)] at heq2
              simp only [Option.some.injEq, Prod.mk.injEq] at heq2
              obtain ⟨hx2, hr3⟩ := heq2
              subst hx2; subst hr3
              split
              next heq3 =>
                simp [takeCont_encode (0x80 + c.toNat % 64) (by omega) (by omega) rest] at heq3
              next x3 r4 heq3 =>
                rw [takeCont_encode (0x80 + c.toNat % 64) (by omega) (by omega) rest] at heq3
                simp only [Option.some.injEq, Prod.mk.injEq] at heq3
                obtain ⟨hx3, hr4⟩ := heq3
                subst hx3; subst hr4
                simp only [hval, if_neg e6, if_neg e7, Char.ofNat_toNat]

theorem decodePercent_flatMap_encode (l : List Char) :
    decodePercent (l.flatMap encodeChar) = some l := by
  induction l with
  | nil => rw [List.flatMap_nil, decodePercent]
  | cons c t ih =>
    rw [List.flatMap_cons, decodePercent_encodeChar, ih]
    rfl

theorem jsDecode_jsEncode (s : String) :
    jsDecodeURIComponent (jsEncodeURIComponent s) = some s := by
  cases s with
  | mk l =>
    show (decodePercent (l.flatMap encodeChar)).map String.mk = some (String.mk l)
    rw [decodePercent_flatMap_encode]
    rfl

theorem encodeChar_ne_nil (c : Char) : encodeChar c ≠ [] := by
  unfold encodeChar
  split
  · simp
  · by_cases h1 : c.toNat < 0x80 <;> by_cases h2 : c.toNat < 0x800 <;>
      by_cases h3 : c.toNat < 0x10000 <;>
      simp [utf8Bytes, h1, h2, h3, percentEncodeByte]

theorem jsEncode_eq_empty {s : String} (h : jsEncodeURIComponent s = "") : s = "" := by
  cases s with
  | mk l =>
    cases l with
    | nil => rfl
    | cons c t =>
      exfalso
      have hdata : (c :: t).flatMap encodeChar = ([] : List Char) :=
        congrArg String.data h
      rw [List.flatMap_cons] at hdata
      exact encodeChar_ne_nil c (List.append_eq_nil.mp hdata).1

/-- The encode/decode round trip as seen through `decodeDatasetValue`:
whatever the renderer percent-encoded comes back byte for byte. -/
theorem decodeDatasetValue_encode (s : String) :
    decodeDatasetValue (some (jsEncodeURIComponent s)) = s := by
  by_cases h : jsEncodeURIComponent s = ""
  · rw [show decodeDatasetValue (some (jsEncodeURIComponent s)) =
      decodeDatasetValue (some "") from by rw [h]]
    rw [jsEncode_eq_empty h]
    rfl
  · simp only [decodeDatasetValue, if_neg h, jsDecode_jsEncode]

/-! ## The HTML renderer (`markdownToHtml`, lines 363-382)

`marked.parse` itself is an external library; the model keeps its
output for non-fence content opaque (the `markedOutput` constructor
holds the source segment the library renders).  The intercepted fenced
code blocks — the part `App.tsx` customises — are modelled exactly:
`renderer.code` turns a `mermaid` fence into a diagram placeholder and
any other fence into a code placeholder, percent-encoding the fence
text into a data attribute. -/

/-- `escapeHtml` (lines 327-334).  The five sequential `replaceAll`
passes never rewrite one another's output, so their composition is this
character-wise expansion. -/
def escapeHtmlChar (c : Char) : List Char :=
  if c = '&' then "&amp;".data
  else if c = '<' then "&lt;".data
  else if c = '>' then "&gt;".data
  else if c = '"' then "&quot;".data
  else if c = Char.ofNat 39 then "&#39;".data
  else [c]

def escapeHtml (s : String) : String :=
  String.mk (s.data.flatMap escapeHtmlChar)

/-- The placeholder-level output of `markdownToHtml`. -/
inductive HtmlPart where
  | markedOutput (source : String)
  | codeBlock (langAttr : String) (codeAttr : String)
  | mermaidBlock (mermaidAttr : String)
deriving DecidableEq, Repr

/-- `renderer.code` (lines 366-375). -/
def rendererCode (text : String) (lang : Option String) : HtmlPart :=
  let encodedCode := jsEncodeURIComponent text
  let cleanLang := jsToLower (jsTrim (lang.getD ""))
  if cleanLang = "mermaid" then .mermaidBlock encodedCode
  else .codeBlock (escapeHtml cleanLang) encodedCode

/-- The percent-encoded data attribute carried by a placeholder
(`data-code` / `data-mermaid`), if any. -/
def HtmlPart.dataAttr : HtmlPart → Option String
  | .markedOutput _ => none
  | .codeBlock _ a => some a
  | .mermaidBlock a => some a

/-- Split a character stream into its lines. -/
def splitLines : List Char → List (List Char)
  | [] => [[]]
  | c :: rest =>
    if c = '\n' then [] :: splitLines rest
    else
      match splitLines rest with
      | [] => [[c]]
      | l :: ls => (c :: l) :: ls

/-- Join lines back with newlines. -/
def joinLines : List (List Char) → List Char
  | [] => []
  | [l] => l
  | l :: ls => l ++ '\n' :: joinLines ls

theorem length_dropWhile_le {α : Type} (p : α → Bool) (l : List α) :
    (l.dropWhile p).length ≤ l.length := by
  induction l with
  | nil => simp [List.dropWhile]
  | cons c t ih =>
    rw [List.dropWhile]
    by_cases h : p c
    · simp only [h]
      exact Nat.le_trans ih (by simp)
    · simp [h]

theorem length_takeWhile_le {α : Type} (p : α → Bool) (l : List α) :
    (l.takeWhile p).length ≤ l.length := by
  induction l with
  | nil => simp [List.takeWhile]
  | cons c t ih =>
    rw [List.takeWhile_cons]
    by_cases h : p c
    · simp only [h, if_true, List.length_cons]
      omega
    · simp [h]

/-- A GFM backtick code-fence opener: at most three spaces of
indentation, at least three backticks, and an info string free of
backticks. -/
def fenceOpen (line : List Char) : Option (Nat × String) :=
  let ind := line.takeWhile (fun c => c = ' ')
  if ind.length ≤ 3 then
    let r := line.drop ind.length
    let ticks := r.takeWhile (fun c => c = Char.ofNat 96)
    if 3 ≤ ticks.length && !(r.drop ticks.length).contains (Char.ofNat 96) then
      some (ticks.length, jsTrim (String.mk (r.drop ticks.length)))
    else none
  else none

/-- A closing fence line for an opener of `n` backticks. -/
def fenceCloses (n : Nat) (line : List Char) : Bool :=
  let ind := line.takeWhile (fun c => c = ' ')
  ind.length ≤ 3 &&
    (let r := line.drop ind.length
     let ticks := r.takeWhile (fun c => c = Char.ofNat 96)
     n ≤ ticks.length && jsTrimChars (r.drop ticks.length) = [])

/-- The line scan behind `marked.parse` with the custom code renderer:
fenced regions become placeholders via `rendererCode`, consecutive
non-fence lines stay together as one opaque `marked` rendering. -/
def markdownToHtmlGoF : Nat → List (List Char) → List HtmlPart
  | 0, _ => []
  | fuel + 1, lls =>
    match lls with
    | [] => []
    | l :: ls =>
      match fenceOpen l with
      | some (n, info) =>
        rendererCode
          (String.mk (joinLines (ls.takeWhile (fun l2 => !fenceCloses n l2))))
          (some info) ::
          markdownToHtmlGoF fuel ((ls.dropWhile (fun l2 => !fenceCloses n l2)).drop 1)
      | none =>
        match markdownToHtmlGoF fuel ls with
        | .markedOutput s :: parts =>
          .markedOutput (String.mk (l ++ '\n' :: s.data)) :: parts
        | parts => .markedOutput (String.mk l) :: parts

def markdownToHtmlGo (lls : List (List Char)) : List HtmlPart :=
  markdownToHtmlGoF lls.length lls

/-- `markdownToHtml` (lines 363-382) at the placeholder level. -/
def markdownToHtml (content : String) : List HtmlPart :=
  markdownToHtmlGo (splitLines content.data)

/-! ## The slide compiler (`parseSlides`, lines 384-416) -/

/-- A line the split pattern `^\s*---\s*$` matches: optional whitespace,
exactly `---`, optional whitespace. -/
def isSeparatorLine (l : List Char) : Bool :=
  jsTrimChars l = ['-', '-', '-']

/-- Group the document lines into runs between separator lines.  This is
the line-anchored `markdown.split(/^\s*---\s*$/gm)` of line 385: the
regex's greedy `\s*` can also swallow blank lines adjacent to a
separator, but every slide body is trimmed afterwards, so grouping whole
lines compiles to the same slides. -/
def groupLines : List (List Char) → List (List (List Char))
  | [] => [[]]
  | l :: ls =>
    if isSeparatorLine l then [] :: groupLines ls
    else
      match groupLines ls with
      | [] => [[l]]
      | g :: gs => (l :: g) :: gs

/-- The raw slide segments of a document. -/
def splitSegments (markdown : String) : List String :=
  (groupLines (splitLines markdown.data)).map (fun g => String.mk (joinLines g))

/-- Case-insensitive prefix test (the `i` regex flag). -/
def ciPrefix : List Char → List Char → Bool
  | [], _ => true
  | _ :: _, [] => false
  | p :: ps, c :: cs => p.toLower = c.toLower && ciPrefix ps cs

/-- Match the opening marker of `/::: ?notes\s*([\s\S]*?):::/gi` at the
head of the input (`:::`, an optional single space, case-insensitive
`notes`), returning what follows the marker.  When the optional space is
present, backtracking to the space-less alternative can never succeed
(a space is not an `n`), so only one alternative needs testing. -/
def matchNotesOpen : List Char → Option (List Char)
  | ':' :: ':' :: ':' :: ' ' :: rest =>
    if ciPrefix "notes".data rest then some (rest.drop 5) else none
  | ':' :: ':' :: ':' :: rest =>
    if ciPrefix "notes".data rest then some (rest.drop 5) else none
  | _ => none

/-- Split at the first occurrence of the closing `:::`, returning the
inner text and what follows. -/
def splitAtCloser : List Char → Option (List Char × List Char)
  | [] => none
  | c :: rest =>
    if c = ':' ∧ rest.take 2 = [':', ':'] then some ([], rest.drop 2)
    else (splitAtCloser rest).map (fun p => (c :: p.1, p.2))

theorem ciPrefix_length : ∀ {p l : List Char}, ciPrefix p l = true → p.length ≤ l.length := by
  intro p
  induction p with
  | nil => intro l _; simp
  | cons a ps ih =>
    intro l h
    cases l with
    | nil => exact absurd h (by simp [ciPrefix])
    | cons c cs =>
      rw [ciPrefix] at h
      simp only [Bool.and_eq_true] at h
      simpa using ih h.2

theorem matchNotesOpen_length {l r : List Char} (h : matchNotesOpen l = some r) :
    r.length + 8 ≤ l.length := by
  unfold matchNotesOpen at h
  split at h
  · split at h
    · rename_i hci
      have hlen := ciPrefix_length hci
      simp only [show ("notes".data).length = 5 from rfl] at hlen
      simp only [Option.some.injEq] at h
      subst h
      simp only [List.length_cons, List.length_drop]
      omega
    · exact absurd h (by simp)
  · split at h
    · rename_i hci
      have hlen := ciPrefix_length hci
      simp only [show ("notes".data).length = 5 from rfl] at hlen
      simp only [Option.some.injEq] at h
      subst h
      simp only [List.length_cons, List.length_drop]
      omega
    · exact absurd h (by simp)
  · exact absurd h (by simp)

theorem splitAtCloser_length (l : List Char) :
    ∀ p : List Char × List Char, splitAtCloser l = some p → p.2.length + 3 ≤ l.length := by
  induction l with
  | nil =>
    intro p h
    exact absurd h (by simp [splitAtCloser])
  | cons c rest ih =>
    intro p h
    rw [splitAtCloser] at h
    split at h
    · rename_i hc
      have h2 : (rest.take 2).length = 2 := by rw [hc.2]; rfl
      simp only [List.length_take] at h2
      simp only [Option.some.injEq] at h
      subst h
      simp only [List.length_cons, List.length_drop]
      omega
    · match hq : splitAtCloser rest with
      | none => rw [hq] at h; exact absurd h (by simp)
      | some q =>
        rw [hq] at h
        simp only [Option.map_some', Option.some.injEq] at h
        subst h
        have := ih q hq
        simp only [List.length_cons]
        omega

/-- The block-notes pass (lines 390-396): the global regex replace of
`/::: ?notes\s*([\s\S]*?):::/gi` with `''`, collecting each trimmed
non-empty inner text in match order.  Returns the collected notes and
the residual content.  The fuel argument only bounds the recursion (a
match always consumes characters, so the input length suffices); fuel
can run out only on the empty input, where both branches agree. -/
def blockNotesGoF : Nat → List Char → (List String × List Char)
  | 0, _ => ([], [])
  | fuel + 1, l =>
    match l with
    | [] => ([], [])
    | c :: rest =>
      match matchNotesOpen (c :: rest) with
      | some afterMarker =>
        match splitAtCloser afterMarker with
        | some p =>
          let res := blockNotesGoF fuel p.2
          (if jsTrim (String.mk p.1) = "" then res.1
           else jsTrim (String.mk p.1) :: res.1, res.2)
        | none =>
          let res := blockNotesGoF fuel rest
          (res.1, c :: res.2)
      | none =>
        let res := blockNotesGoF fuel rest
        (res.1, c :: res.2)

def blockNotesGo (l : List Char) : (List String × List Char) :=
  blockNotesGoF l.length l

/-- The line-notes pass (lines 398-404): the global multiline regex
replace of `/^Note:\s*(.+)$/gim` with `''`.  At a line start the marker
`Note:` matches case-insensitively; the greedy `\s*` may run across line
breaks, so the non-empty single-line capture is the first run of
non-newline text after the marker.  When everything after the marker is
whitespace, the pattern can still match by backtracking `\s*` into a
whitespace-only capture (discarded as empty after trimming, leaving only
the trailing newlines in the body); when that whitespace consists of
newlines alone there is no match at all. -/
def lineNotesGoF : Nat → Bool → List Char → (List String × List Char)
  | 0, _, _ => ([], [])
  | fuel + 1, atStart, l =>
    match l with
    | [] => ([], [])
    | c :: rest =>
      if atStart && ciPrefix "note:".data (c :: rest) then
        match (List.drop 5 (c :: rest)).dropWhile isJsWs with
        | [] =>
          if (List.drop 5 (c :: rest)).any (fun x => x ≠ '\n') then
            ([], ((List.drop 5 (c :: rest)).reverse.takeWhile (fun x => x = '\n')).reverse)
          else
            ([], c :: rest)
        | nc :: afterWs =>
          let cap := (nc :: afterWs).takeWhile (fun x => x ≠ '\n')
          let remaining := (nc :: afterWs).dropWhile (fun x => x ≠ '\n')
          let res := lineNotesGoF fuel false remaining
          (if jsTrim (String.mk cap) = "" then res.1
           else jsTrim (String.mk cap) :: res.1, res.2)
      else
        let res := lineNotesGoF fuel (c = '\n') rest
        (res.1, c :: res.2)

def lineNotesGo (atStart : Bool) (l : List Char) : (List String × List Char) :=
  lineNotesGoF l.length atStart l

/-- `_Empty slide_` (line 406). -/
def EMPTY_SLIDE_BODY : String := "_Empty slide_"

/-- `No speaker notes for this slide.` (line 413). -/
def NO_NOTES_PLACEHOLDER : String := "No speaker notes for this slide."

/-- Both note-extraction passes of `parseSlides`: the block pass
collects and removes every `::: notes ... :::` region, then the line
pass runs on the residual text.  Returns the collected notes (block
matches first, then line matches) and the remaining body text. -/
def extractNotes (raw : String) : List String × String :=
  let b := blockNotesGo raw.data
  let ln := lineNotesGo true b.2
  (b.1 ++ ln.1, String.mk ln.2)

/-- One attempt of the heading pattern `^\s{0,3}#{1,2}\s+(.+)$` of
`extractTitle` (line 356) at a line-start position.  `\s` also matches
newlines, which the scanner reproduces: the mandatory `\s+` may cross
line breaks before the capture starts, and when only whitespace follows
the hashes the capture can still backtrack into a single whitespace
character. -/
def headingCaptureAt (l : List Char) : Option (List Char) :=
  let ws := l.takeWhile isJsWs
  if ws.length ≤ 3 then
    let r := l.drop ws.length
    let hashes := r.takeWhile (fun c => c = '#')
    if 1 ≤ hashes.length ∧ hashes.length ≤ 2 then
      let after := r.drop hashes.length
      let ws2 := after.takeWhile isJsWs
      if ws2.length = 0 then none
      else
        let body := after.drop ws2.length
        match body with
        | nc :: bodyRest => some ((nc :: bodyRest).takeWhile (fun c => c ≠ '\n'))
        | [] =>
          match ((ws2.drop 1).filter (fun c => c ≠ '\n')).getLast? with
          | some c2 => some [c2]
          | none => none
    else none
  else none

/-- Scan the document for the first line start where the heading
pattern matches, as the `m`-flagged `String.match` does. -/
def findHeadingGo : Bool → List Char → Option (List Char)
  | _, [] => none
  | atStart, c :: rest =>
    if atStart then
      match headingCaptureAt (c :: rest) with
      | some cap => some cap
      | none => findHeadingGo (c = '\n') rest
    else findHeadingGo (c = '\n') rest

/-- `extractTitle` (lines 355-361). -/
def extractTitle (markdown : String) (fallbackIndex : Nat) : String :=
  match findHeadingGo true markdown.data with
  | some cap => jsTrim (String.mk cap)
  | none => s!"Slide {fallbackIndex + 1}"

/-- The `Slide` record (lines 41-47). -/
structure Slide where
  id : Nat
  title : String
  markdown : String
  html : List HtmlPart
  notes : String
deriving DecidableEq, Repr

/-- `noteCollection.join('\n\n').trim() || 'No speaker notes…'`
(line 413). -/
def slideNotesText (collected : List String) : String :=
  if jsTrim (String.intercalate "\n\n" collected) = "" then NO_NOTES_PLACEHOLDER
  else jsTrim (String.intercalate "\n\n" collected)

/-- The body of the `rawSlides.map` callback (lines 387-415). -/
def compileSegment (index : Nat) (rawSlide : String) : Slide :=
  let extracted := extractNotes rawSlide
  let normalized := if jsTrim extracted.2 = "" then EMPTY_SLIDE_BODY else jsTrim extracted.2
  { id := index
    title := extractTitle normalized index
    markdown := normalized
    html := markdownToHtml normalized
    notes := slideNotesText extracted.1 }

/-- `parseSlides` (lines 384-416). -/
def parseSlides (markdown : String) : List Slide :=
  (splitSegments markdown).mapIdx compileSegment

/-! ## The enhancement pipeline -/

/-- Attribute lookup (the `dataset` accesses, with `data-…` names). -/
def getAttr (attrs : List (String × String)) (k : String) : Option String :=
  (attrs.find? (fun p => p.1 = k)).map (fun p => p.2)

/-- `LANG_ALIAS` (lines 222-234). -/
def langAlias (s : String) : Option String :=
  if s = "js" then some "javascript"
  else if s = "javascript" then some "javascript"
  else if s = "ts" then some "typescript"
  else if s = "typescript" then some "typescript"
  else if s = "py" then some "python"
  else if s = "python" then some "python"
  else if s = "json" then some "json"
  else if s = "bash" then some "bash"
  else if s = "sh" then some "bash"
  else if s = "md" then some "markdown"
  else if s = "markdown" then some "markdown"
  else none

/-- `resolveLanguage` (lines 347-353). -/
def resolveLanguage (rawLang : Option String) : Option String :=
  match rawLang with
  | none => none
  | some s => if s = "" then none else langAlias (jsToLower (jsTrim s))

/-- The plain preformatted fallback block (lines 449-454 and 465-470):
a bare `pre > code` whose text content is the decoded source. -/
def plainPre (code : String) : DomNode :=
  .elem "PRE" ["deck-code", "deck-code-plain"] [] [.elem "CODE" [] [] [.text code]]

/-- The `querySelectorAll('pre.md-code')` membership test. -/
def isCodePlaceholder (tag : String) (classes : List String) : Bool :=
  tag = "PRE" && classes.contains "md-code"

def classListAdd (classes : List String) (c : String) : List String :=
  if classes.contains c then classes else classes ++ [c]

def classListToggle (classes : List String) (c : String) (flag : Bool) : List String :=
  if flag then classListAdd classes c else classes.filter (fun x => x ≠ c)

mutual

/-- Decorate the `.line` spans of highlighted output (lines 483-488) in
document order: running index `i`, 1-based `data-line-number`, staggered
`animationDelay` of `70ms` per line. -/
def decorateLines (i : Nat) : DomNode → (DomNode × Nat)
  | .text s => (.text s, i)
  | .elem tag classes attrs children =>
    if classes.contains "line" then
      let res := decorateLinesList (i + 1) children
      (.elem tag (classListAdd classes "deck-code-line")
        (attrs ++ [("data-line-number", toString (i + 1)),
                   ("style.animationDelay", toString (i * 70) ++ "ms")])
        res.1, res.2)
    else
      let res := decorateLinesList i children
      (.elem tag classes attrs res.1, res.2)

def decorateLinesList (i : Nat) : List DomNode → (List DomNode × Nat)
  | [] => ([], i)
  | n :: ns =>
    let r1 := decorateLines i n
    let r2 := decorateLinesList r1.2 ns
    (r1.1 :: r2.1, r2.2)

end

/-- The body of the `enhanceCodeBlocks` loop (lines 443-491) for one
`pre.md-code` placeholder.  The highlighting engine is the parameter
`hl` (absent when Shiki failed to initialise; `Except.error` models a
thrown `codeToHtml`); `parseHtml` models `DOMParser` +
`firstElementChild` on the engine's markup (`none` models a null first
element, which leaves the placeholder in place, the loop's
`continue`). -/
def processCodePlaceholder
    (hl : Option (String → String → String → Except String String))
    (parseHtml : String → Option DomNode)
    (theme : String) (showLineNumbers : Bool)
    (tag : String) (classes : List String) (attrs : List (String × String))
    (children : List DomNode) : DomNode :=
  let code := decodeDatasetValue (getAttr attrs "data-code")
  let rawLang := decodeDatasetValue (getAttr attrs "data-lang")
  match hl, resolveLanguage (some rawLang) with
  | none, _ => plainPre code
  | some _, none => plainPre code
  | some f, some lang =>
    match f code lang theme with
    | .error _ => plainPre code
    | .ok html =>
      match parseHtml html with
      | none => .elem tag classes attrs children
      | some (.text s) => .text s
      | some (.elem t2 c2 a2 ch2) =>
        .elem t2
          (classListToggle (classListAdd c2 "deck-code") "deck-code-with-lines"
            showLineNumbers)
          a2 (decorateLinesList 0 ch2).1

mutual

/-- The placeholder replacement of `enhanceCodeBlocks` on one node. -/
def enhanceCodeNode (hl : Option (String → String → String → Except String String))
    (parseHtml : String → Option DomNode) (theme : String) (showLineNumbers : Bool) :
    DomNode → DomNode
  | .text s => .text s
  | .elem tag classes attrs children =>
    if isCodePlaceholder tag classes then
      processCodePlaceholder hl parseHtml theme showLineNumbers tag classes attrs children
    else
      .elem tag classes attrs (enhanceCodeList hl parseHtml theme showLineNumbers children)

def enhanceCodeList (hl : Option (String → String → String → Except String String))
    (parseHtml : String → Option DomNode) (theme : String) (showLineNumbers : Bool) :
    List DomNode → List DomNode
  | [] => []
  | n :: ns =>
    enhanceCodeNode hl parseHtml theme showLineNumbers n ::
      enhanceCodeList hl parseHtml theme showLineNumbers ns

end

/-- `enhanceCodeBlocks` (lines 435-492) on a mounted root: every
`pre.md-code` placeholder below the root is replaced.  Placeholders
carry percent-encoded content and therefore never nest, so this single
recursive pass coincides with the source's collect-then-`replaceWith`
loop. -/
def enhanceCodeBlocks (hl : Option (String → String → String → Except String String))
    (parseHtml : String → Option DomNode) (theme : String) (showLineNumbers : Bool) :
    DomNode → DomNode
  | .text s => .text s
  | .elem tag classes attrs children =>
    .elem tag classes attrs (enhanceCodeList hl parseHtml theme showLineNumbers children)

/-- `shouldSkipMathNode` (lines 494-513), applied to the chain of
ancestors of a text node, nearest (the parent) first.
`parent.closest('.katex')` inspects the parent and all its ancestors;
the `disallowedTags` test inspects `parent.tagName` alone. -/
def shouldSkipMathNode (anc : List (String × List String)) : Bool :=
  match anc with
  | [] => true
  | (tag, _) :: _ =>
    anc.any (fun p => p.2.contains "katex") ||
    (tag = "PRE" || tag = "CODE" || tag = "SCRIPT" || tag = "STYLE" ||
     tag = "TEXTAREA" || tag = "SVG")

/-- Split at the first `$$` occurrence, returning the text before it and
the text after it. -/
def findDoubleDollar : List Char → Option (List Char × List Char)
  | [] => none
  | c :: rest =>
    if c = '$' ∧ rest.take 1 = ['$'] then some ([], rest.drop 1)
    else (findDoubleDollar rest).map (fun p => (c :: p.1, p.2))

theorem findDoubleDollar_length (l : List Char) :
    ∀ p : List Char × List Char, findDoubleDollar l = some p →
      p.2.length + 2 ≤ l.length := by
  induction l with
  | nil => intro p h; exact absurd h (by simp [findDoubleDollar])
  | cons c rest ih =>
    intro p h
    rw [findDoubleDollar] at h
    split at h
    · rename_i hc
      have h1 : (rest.take 1).length = 1 := by rw [hc.2]; rfl
      simp only [List.length_take] at h1
      simp only [Option.some.injEq] at h
      subst h
      simp only [List.length_cons, List.length_drop]
      omega
    · match hq : findDoubleDollar rest with
      | none => rw [hq] at h; exact absurd h (by simp)
      | some q =>
        rw [hq] at h
        simp only [Option.map_some', Option.some.injEq] at h
        subst h
        have := ih q hq
        simp only [List.length_cons]
        omega

/-- The display branch `\$\$([\s\S]+?)\$\$` tried right after an
opening `$`: one more `$`, a non-empty lazy capture, then the closing
`$$`.  Returns the capture and the rest after the match. -/
def displayAt : List Char → Option (List Char × List Char)
  | '$' :: c1 :: rest2 => (findDoubleDollar rest2).map (fun p => (c1 :: p.1, p.2))
  | _ => none

/-- The inline branch `\$([^$\n]+?)\$` tried after an opening `$`: a
non-empty single-line capture free of `$`, then the closing `$`. -/
def inlineAt (l : List Char) : Option (List Char × List Char) :=
  if 1 ≤ (l.takeWhile (fun c => c ≠ '$' && c ≠ '\n')).length then
    match l.drop (l.takeWhile (fun c => c ≠ '$' && c ≠ '\n')).length with
    | '$' :: r2 => some (l.takeWhile (fun c => c ≠ '$' && c ≠ '\n'), r2)
    | _ => none
  else none

/-- One step of the `matchAll` scan over
`/\$\$([\s\S]+?)\$\$|\$([^$\n]+?)\$/g` (line 528): the text before the
next match, the display flag, the expression capture, and the rest of
the input after the match; `none` when no further match exists. -/
def nextMathMatch : List Char → Option (List Char × Bool × List Char × List Char)
  | [] => none
  | c :: rest =>
    if c = '$' then
      match displayAt rest with
      | some (expr, after) => some ([], true, expr, after)
      | none =>
        match inlineAt rest with
        | some (expr, after) => some ([], false, expr, after)
        | none =>
          (nextMathMatch rest).map (fun p => (c :: p.1, p.2.1, p.2.2.1, p.2.2.2))
    else (nextMathMatch rest).map (fun p => (c :: p.1, p.2.1, p.2.2.1, p.2.2.2))

theorem displayAt_length {l : List Char} {p : List Char × List Char}
    (h : displayAt l = some p) : p.2.length + 3 ≤ l.length := by
  unfold displayAt at h
  split at h
  next c1 rest2 =>
    match hq : findDoubleDollar rest2 with
    | none => rw [hq] at h; exact absurd h (by simp)
    | some q =>
      rw [hq] at h
      simp only [Option.map_some', Option.some.injEq] at h
      subst h
      have := findDoubleDollar_length rest2 q hq
      simp only [List.length_cons]
      omega
  next => exact absurd h (by simp)

theorem inlineAt_length {l : List Char} {p : List Char × List Char}
    (h : inlineAt l = some p) : p.2.length + 2 ≤ l.length := by
  unfold inlineAt at h
  split at h
  · rename_i hcap
    split at h
    next r2 heq =>
      simp only [Option.some.injEq] at h
      subst h
      have h1 : (List.drop (l.takeWhile (fun c => c ≠ '$' && c ≠ '\n')).length l).length =
          r2.length + 1 := by rw [heq]; rfl
      simp only [List.length_drop] at h1
      have h2 : (l.takeWhile (fun c => c ≠ '$' && c ≠ '\n')).length ≤ l.length :=
        length_takeWhile_le _ l
      dsimp only
      omega
    next => exact absurd h (by simp)
  · exact absurd h (by simp)

theorem nextMathMatch_length (l : List Char) :
    ∀ t : List Char × Bool × List Char × List Char, nextMathMatch l = some t →
      t.2.2.2.length < l.length := by
  induction l with
  | nil => intro t h; exact absurd h (by simp [nextMathMatch])
  | cons c rest ih =>
    intro t h
    rw [nextMathMatch] at h
    split at h
    · split at h
      next expr after hd =>
        simp only [Option.some.injEq] at h
        subst h
        have := displayAt_length hd
        dsimp only at this ⊢
        simp only [List.length_cons]
        omega
      next hd =>
        split at h
        next expr after hi =>
          simp only [Option.some.injEq] at h
          subst h
          have := inlineAt_length hi
          dsimp only at this ⊢
          simp only [List.length_cons]
          omega
        next hi =>
          match hq : nextMathMatch rest with
          | none => rw [hq] at h; exact absurd h (by simp)
          | some q =>
            rw [hq] at h
            simp only [Option.map_some', Option.some.injEq] at h
            subst h
            have := ih q hq
            simp only [List.length_cons]
            omega
    · match hq : nextMathMatch rest with
      | none => rw [hq] at h; exact absurd h (by simp)
      | some q =>
        rw [hq] at h
        simp only [Option.map_some', Option.some.injEq] at h
        subst h
        have := ih q hq
        simp only [List.length_cons]
        omega

/-- The fragment built by the `matchAll` loop (lines 530-574): plain
text before each match survives as sibling text nodes, each match
becomes a `div.math-display` or `span.math-inline` holding the engine's
markup for the trimmed expression, and the tail after the last match
survives as a final text node.  `render` is the external
`katex.renderToString` (called with `throwOnError: false`). -/
def mathFragmentGoF (render : Bool → String → String) : Nat → List Char → List DomNode
  | 0, _ => []
  | fuel + 1, l =>
    match nextMathMatch l with
    | none => if l = [] then [] else [.text (String.mk l)]
    | some (pre, dm, expr, after) =>
      (if pre = [] then ([] : List DomNode) else [.text (String.mk pre)]) ++
        (.elem (if dm then "DIV" else "SPAN")
          [if dm then "math-display" else "math-inline"] []
          [.text (render dm (jsTrim (String.mk expr)))]) ::
        mathFragmentGoF render fuel after

def mathFragmentGo (render : Bool → String → String) (l : List Char) : List DomNode :=
  mathFragmentGoF render l.length l

/-- The per-text-node action of `enhanceMath`: nodes without a match are
left untouched (lines 566-568), matched nodes are replaced by the built
fragment. -/
def enhanceMathText (render : Bool → String → String) (s : String) : List DomNode :=
  match nextMathMatch s.data with
  | none => [.text s]
  | some _ => mathFragmentGo render s.data

mutual

/-- `enhanceMath`'s walk on one node, carrying the ancestor chain for
`shouldSkipMathNode` (nearest ancestor first). -/
def enhanceMathNode (render : Bool → String → String)
    (anc : List (String × List String)) : DomNode → List DomNode
  | .text s =>
    if shouldSkipMathNode anc then [.text s] else enhanceMathText render s
  | .elem t cs a ch => [.elem t cs a (enhanceMathList render ((t, cs) :: anc) ch)]

def enhanceMathList (render : Bool → String → String)
    (anc : List (String × List String)) : List DomNode → List DomNode
  | [] => []
  | n :: ns => enhanceMathNode render anc n ++ enhanceMathList render anc ns

end

/-- `enhanceMath` (lines 515-576) on a mounted root: the tree walker
visits every text node below the root, so the root element itself is
the nearest ancestor of its own text children. -/
def enhanceMath (render : Bool → String → String) : DomNode → DomNode
  | .text s => .text s
  | .elem t cs a ch => .elem t cs a (enhanceMathList render [(t, cs)] ch)

mutual

/-- `enhanceMermaid` (lines 578-611) on one node, threading the
placeholder index used in the render-session id
`mermaid-{slideId}-{index}-{timestamp}` (line 598; `Date.now()` is the
`timestamp` parameter).  A successful render replaces the placeholder's
content with the engine markup and marks it ready; a failure replaces it
with an escaped error block. -/
def enhanceMermaidNode (render : String → String → Except String String)
    (slideId idx timestamp : Nat) : DomNode → (DomNode × Nat)
  | .text s => (.text s, idx)
  | .elem t cs a ch =>
    if cs.contains "md-mermaid" then
      match render ("mermaid-" ++ toString slideId ++ "-" ++ toString idx ++ "-" ++
          toString timestamp) (decodeDatasetValue (getAttr a "data-mermaid")) with
      | .ok svg => (.elem t (classListAdd cs "mermaid-ready") a [.text svg], idx + 1)
      | .error e =>
        (.elem t cs a [.elem "PRE" ["mermaid-error"] [] [.text (escapeHtml e)]], idx + 1)
    else
      let r := enhanceMermaidList render slideId idx timestamp ch
      (.elem t cs a r.1, r.2)

def enhanceMermaidList (render : String → String → Except String String)
    (slideId idx timestamp : Nat) : List DomNode → (List DomNode × Nat)
  | [] => ([], idx)
  | n :: ns =>
    let r1 := enhanceMermaidNode render slideId idx timestamp n
    let r2 := enhanceMermaidList render slideId r1.2 timestamp ns
    (r1.1 :: r2.1, r2.2)

end

/-- `enhanceMermaid` on a mounted root. -/
def enhanceMermaid (render : String → String → Except String String)
    (slideId timestamp : Nat) : DomNode → DomNode
  | .text s => .text s
  | .elem t cs a ch => .elem t cs a (enhanceMermaidList render slideId 0 timestamp ch).1

mutual

/-- The number of `.md-mermaid` placeholders below (and at) a node: the
size of the `querySelectorAll('.md-mermaid')` collection, i.e. the
number of DOM writes the diagram stage performs when it runs (each
placeholder receives exactly one `innerHTML` assignment, on success and
on failure alike). -/
def countMermaid : DomNode → Nat
  | .text _ => 0
  | .elem _ cs _ ch => (if cs.contains "md-mermaid" then 1 else 0) + countMermaidList ch

def countMermaidList : List DomNode → Nat
  | [] => 0
  | n :: ns => countMermaid n + countMermaidList ns

end

/-! ## The `SlideRenderer` effect and its cancellation (lines 630-677)

The effect re-renders the slide skeleton, runs the code stage, checks
the `active` flag, runs the math stage and schedules the diagram stage
behind a 140 ms timer.  Its cleanup (the disposer, lines 664-669) sets
`active := false` and clears a pending timer.  The model is a state
machine over the three externally visible events of one run: the
completion of the awaited code stage (after which the math stage runs
synchronously and the timer is scheduled), the disposer, and the firing
of the timer.  `diagramWrites` counts the DOM writes performed by the
diagram stage into the subtree. -/

inductive PipeEv where
  | codeDone
  | dispose
  | timerFire
deriving DecidableEq, Repr

structure PipeState where
  active : Bool
  timerPending : Bool
  diagramWrites : Nat
deriving DecidableEq, Repr

/-- The state at the start of a run: active, no timer scheduled yet,
no diagram writes performed. -/
def pipeInit : PipeState :=
  { active := true, timerPending := false, diagramWrites := 0 }

/-- One event of the run of a `SlideRenderer` effect over a subtree
with `n` diagram placeholders:

* `codeDone` — the awaited `enhanceCodeBlocks` resolved; the guard
  `if (!active) return` (line 648) aborts when the disposer already ran,
  otherwise `enhanceMath` runs synchronously and the mermaid timer is
  scheduled (line 654);
* `dispose` — the cleanup (lines 664-669): `active = false` and
  `clearTimeout` on any pending timer;
* `timerFire` — the timer callback (lines 654-659), possible only while
  the timer is pending; it re-checks `active` before invoking
  `enhanceMermaid`, which performs one write per placeholder. -/
def pipeStep (n : Nat) (s : PipeState) : PipeEv → PipeState
  | .codeDone =>
    if s.active then { s with timerPending := true } else s
  | .dispose => { s with active := false, timerPending := false }
  | .timerFire =>
    if s.timerPending then
      if s.active then
        { s with timerPending := false, diagramWrites := s.diagramWrites + n }
      else { s with timerPending := false }
    else s

/-- Run a sequence of events. -/
def pipeRun (n : Nat) (s : PipeState) : List PipeEv → PipeState
  | [] => s
  | e :: es => pipeRun n (pipeStep n s e) es

/-! ## State synchronisation (lines 690-714 and 1010-1068) -/

/-- The local component state the synchroniser touches:
`{markdown, currentSlide, themeId}`.  JavaScript slide indices are
modelled as integers. -/
structure LocalState where
  markdown : String
  currentSlide : Int
  themeId : ThemeId
deriving DecidableEq, Repr

/-- A shared-state payload as it arrives over the wire: `themeId` is an
arbitrary string until validated, `currentSlide` an arbitrary number. -/
structure RawSharedState where
  markdown : String
  currentSlide : Int
  themeId : String
deriving DecidableEq, Repr

/-- A broadcast message `{sourceId, state}` (lines 61-64); `state` is
`none` when the field is absent or null. -/
structure RawMessage where
  sourceId : String
  state : Option RawSharedState
deriving DecidableEq, Repr

/-- `maxSlideIndex` (line 757). -/
def maxSlideIndex (markdown : String) : Int :=
  max 0 ((parseSlides markdown).length - 1)

/-- The update applied by `goToSlide` (lines 765-778) to the current
index (the transition-direction bookkeeping does not affect the
index). -/
def goToSlideIndex (maxIdx current requested : Int) : Int :=
  clamp requested 0 maxIdx

/-- `nextSlide` (lines 780-788). -/
def nextSlideIndex (maxIdx current : Int) : Int :=
  clamp (current + 1) 0 maxIdx

/-- `previousSlide` (lines 790-798). -/
def previousSlideIndex (maxIdx current : Int) : Int :=
  clamp (current - 1) 0 maxIdx

/-- The clamp-on-recompile effect (lines 759-761). -/
def recompileClampIndex (markdown : String) (current : Int) : Int :=
  clamp current 0 (maxSlideIndex markdown)

/-- The `channel.onmessage` handler (lines 1018-1032): drop a null
payload, drop an echo (`sourceId` equal to the local client id), drop a
null `state` and a `themeId` outside `THEME_CONFIG`; otherwise apply
markdown and theme directly and the slide index through `goToSlide`,
whose clamp still uses the bound of the *current* markdown. -/
def applyBroadcast (localId : String) (st : LocalState) (msg : Option RawMessage) :
    LocalState :=
  match msg with
  | none => st
  | some m =>
    if m.sourceId = localId then st
    else
      match m.state with
      | none => st
      | some s =>
        match themeOfString s.themeId with
        | none => st
        | some t =>
          { markdown := s.markdown
            currentSlide := goToSlideIndex (maxSlideIndex st.markdown) st.currentSlide
              s.currentSlide
            themeId := t }

/-- The payload-shape validation as the specification states it for the
broadcast path: the markdown is text (guaranteed by typing in this
model), the slide index is a non-negative integer and the theme
identifier is known. -/
def specPayloadCheck (s : Option RawSharedState) : Bool :=
  match s with
  | none => false
  | some st => decide (0 ≤ st.currentSlide) && (themeOfString st.themeId).isSome

/-- A parsed durable-store record with the fields that survived
`JSON.parse` carrying the right runtime type (`Partial<SharedState>`,
line 696); `none` models the whole parse throwing. -/
structure StoredRecord where
  markdown : Option String
  currentSlide : Option Int
  themeId : Option String
deriving DecidableEq, Repr

/-- `safeParseSharedState` (lines 690-714): all three fields must be
present with the right type and the theme must be known — the slide
index is only required to be a number, not non-negative. -/
def safeParseSharedState (raw : Option StoredRecord) : Option LocalState :=
  match raw with
  | none => none
  | some r =>
    match r.markdown, r.currentSlide, r.themeId with
    | some md, some cs, some tid =>
      match themeOfString tid with
      | some t => some { markdown := md, currentSlide := cs, themeId := t }
      | none => none
    | _, _, _ => none

/-! ## The deep-link codec (lines 418-433 and 978-995) -/

/-- The decoded fragment state (lines 49-53). -/
structure HashState where
  slideIndex : Nat
  themeId : ThemeId
  presenter : Bool
deriving DecidableEq, Repr

/-- `URLSearchParams.get`: the first value under the key. -/
def getParam (params : List (String × String)) (k : String) : Option String :=
  (params.find? (fun p => p.1 = k)).map (fun p => p.2)

/-- `URLSearchParams.set`: replace the first entry under the key, drop
any further ones, or append when absent. -/
def setParam : List (String × String) → String → String → List (String × String)
  | [], k, v => [(k, v)]
  | p :: ps, k, v =>
    if p.1 = k then (k, v) :: ps.filter (fun q => q.1 ≠ k)
    else p :: setParam ps k v

/-- `URLSearchParams.delete`. -/
def deleteParam (params : List (String × String)) (k : String) : List (String × String) :=
  params.filter (fun p => p.1 ≠ k)

/-- The optional sign at the head of a `parseInt` input. -/
def jsSignSplit : List Char → (List Char × Int)
  | '+' :: r => (r, 1)
  | '-' :: r => (r, -1)
  | r => (r, 1)

/-- `Number.parseInt(s, 10)`: leading whitespace, an optional sign,
then leading decimal digits; `none` models `NaN`. -/
def jsParseInt (s : String) : Option Int :=
  if ((jsSignSplit (s.data.dropWhile isJsWs)).1.takeWhile
      (fun c => '0' ≤ c ∧ c ≤ '9')) = [] then none
  else
    some ((jsSignSplit (s.data.dropWhile isJsWs)).2 *
      (((jsSignSplit (s.data.dropWhile isJsWs)).1.takeWhile
          (fun c => '0' ≤ c ∧ c ≤ '9')).foldl
        (fun a c => a * 10 + (c.toNat - 48)) 0 : Nat))

/-- `readHashState` (lines 418-433) over the fragment's parameter
list. -/
def readHashState (params : List (String × String)) : HashState :=
  let requestedTheme := getParam params "theme"
  let requestedSlide := jsParseInt ((getParam params "slide").getD "1")
  { slideIndex :=
      match requestedSlide with
      | some n => (max 0 (n - 1)).toNat
      | none => 0
    themeId :=
      match requestedTheme with
      | some t => (themeOfString t).getD DEFAULT_THEME_ID
      | none => DEFAULT_THEME_ID
    presenter := getParam params "presenter" = some "1" }

/-- The hash-writing effect (lines 978-995): it merges into whatever
parameters the fragment already holds — `slide` becomes the 1-based
index, `theme` the current identifier, and `presenter` is set to `"1"`
in a presenter window and deleted otherwise. -/
def writeHashParams (prev : List (String × String)) (currentSlide : Nat)
    (themeId : ThemeId) (isPresenterWindow : Bool) : List (String × String) :=
  let p1 := setParam prev "slide" (toString (currentSlide + 1))
  let p2 := setParam p1 "theme" themeId.key
  if isPresenterWindow then setParam p2 "presenter" "1"
  else deleteParam p2 "presenter"

/-- Split on `&`. -/
def splitOnAmp : List Char → List (List Char)
  | [] => [[]]
  | c :: rest =>
    if c = '&' then [] :: splitOnAmp rest
    else
      match splitOnAmp rest with
      | [] => [[c]]
      | l :: ls => (c :: l) :: ls

/-- Split a URL fragment into its `key=value` parameters
(`URLSearchParams` parsing; the deep-link keys and values never use
percent escapes or `+`). -/
def parseFragment (s : String) : List (String × String) :=
  (splitOnAmp s.data).filterMap (fun piece =>
    if piece = [] then none
    else
      some (String.mk (piece.takeWhile (fun c => c ≠ '=')),
        String.mk ((piece.dropWhile (fun c => c ≠ '=')).drop 1)))

/-! ## Observation functions on DOM trees -/

mutual

/-- The values of all text nodes below (and at) a node, in document
order. -/
def collectTexts : DomNode → List String
  | .text s => [s]
  | .elem _ _ _ ch => collectTextsList ch

def collectTextsList : List DomNode → List String
  | [] => []
  | n :: ns => collectTexts n ++ collectTextsList ns

end

mutual

/-- `textContent` of a node: the concatenation of all text below it. -/
def textContent : DomNode → String
  | .text s => s
  | .elem _ _ _ ch => textContentList ch

def textContentList : List DomNode → String
  | [] => ""
  | n :: ns => textContent n ++ textContentList ns

end

mutual

/-- The text nodes below a node that `shouldSkipMathNode` protects,
given the ancestor chain of the node, in document order. -/
def skippedTexts (anc : List (String × List String)) : DomNode → List String
  | .text s => if shouldSkipMathNode anc then [s] else []
  | .elem t cs _ ch => skippedTextsList ((t, cs) :: anc) ch

def skippedTextsList (anc : List (String × List String)) : List DomNode → List String
  | [] => []
  | n :: ns => skippedTexts anc n ++ skippedTextsList anc ns

end

/-- The protected text nodes of a mounted root (the root element is the
nearest ancestor of its own text children, as in `enhanceMath`). -/
def skippedTextsRoot : DomNode → List String
  | .text s => [s]
  | .elem t cs _ ch => skippedTextsList [(t, cs)] ch

/-- The decimal digit string of `n`, most significant digit first: the
reference characterization of `Nat.repr` (what `String(n)` produces). -/
def decRepr (n : Nat) : List Char :=
  if n < 10 then [Nat.digitChar n]
  else decRepr (n / 10) ++ [Nat.digitChar (n % 10)]
decreasing_by exact Nat.div_lt_self (by omega) (by omega)

/-! ## Claim C6 — compilation is a pure function of the document text -/

/-- C6: compiling the same text twice yields structurally identical
`Slide[]` output.  The compiler (`parseSlides` with `extractTitle`, the
note extraction and `markdownToHtml`) reads no mutable or ambient state
— its embedding is a plain function, so determinism is definitional. -/
theorem c6_parseSlides_pure (d : String) :
    parseSlides d = parseSlides d ∧ markdownToHtml d = markdownToHtml d :=
  ⟨rfl, rfl⟩

/-! ## Claim C1 — a disposed run performs no diagram DOM writes -/

theorem pipeRun_dead (n : Nat) (tr : List PipeEv) :
    ∀ s : PipeState, s.active = false → s.timerPending = false →
      (pipeRun n s tr).diagramWrites = s.diagramWrites := by
  induction tr with
  | nil => intro s _ _; rfl
  | cons e es ih =>
    intro s ha hp
    cases e with
    | codeDone =>
      rw [pipeRun, pipeStep, ha]
      simpa using ih s ha hp
    | dispose =>
      rw [pipeRun, pipeStep]
      exact ih _ rfl rfl
    | timerFire =>
      rw [pipeRun, pipeStep, hp]
      simpa using ih s ha hp

/-- C1: if the subtree is marked irrelevant — the disposer runs, setting
`active := false` and clearing the pending mermaid timer — before the
deferred timer fires, the diagram stage performs zero DOM writes into
the subtree: in every event sequence of a run in which each `timerFire`
is preceded by a `dispose`, the diagram-stage write count stays zero. -/
theorem c1_no_stale_diagram_writes (n : Nat) (tr : List PipeEv)
    (h : ∀ i : Fin tr.length, tr.get i = PipeEv.timerFire →
      PipeEv.dispose ∈ tr.take i.val) :
    (pipeRun n pipeInit tr).diagramWrites = 0 := by
  suffices H : ∀ (tr : List PipeEv) (s : PipeState), s.diagramWrites = 0 →
      (∀ i : Fin tr.length, tr.get i = PipeEv.timerFire →
        PipeEv.dispose ∈ tr.take i.val) →
      (pipeRun n s tr).diagramWrites = 0 from H tr pipeInit rfl h
  intro tr
  induction tr with
  | nil => intro s hs _; exact hs
  | cons e es ih =>
    intro s hs h
    cases e with
    | codeDone =>
      rw [pipeRun]
      apply ih
      · rw [pipeStep]
        split
        · exact hs
        · exact hs
      · intro i hfire
        have hh := h ⟨i.val + 1, by simpa using Nat.succ_lt_succ i.isLt⟩
          (by simpa using hfire)
        simp only [List.take_succ_cons, List.mem_cons] at hh
        rcases hh with h1 | h2
        · exact absurd h1 (by decide)
        · exact h2
    | dispose =>
      rw [pipeRun]
      rw [pipeRun_dead n es _ rfl rfl]
      simpa [pipeStep] using hs
    | timerFire =>
      exfalso
      have hh := h ⟨0, by simp⟩ rfl
      simp at hh

/-- Witness: a run whose timer is scheduled, disposed, and whose timer
event arrives only afterwards writes nothing. -/
theorem c1_witness :
    (∀ i : Fin ([PipeEv.codeDone, PipeEv.dispose, PipeEv.timerFire] : List PipeEv).length,
      ([PipeEv.codeDone, PipeEv.dispose, PipeEv.timerFire] : List PipeEv).get i =
          PipeEv.timerFire →
        PipeEv.dispose ∈ ([PipeEv.codeDone, PipeEv.dispose, PipeEv.timerFire] :
          List PipeEv).take i.val) ∧
    (pipeRun 3 pipeInit [PipeEv.codeDone, PipeEv.dispose, PipeEv.timerFire]).diagramWrites
      = 0 :=
  ⟨by decide, c1_no_stale_diagram_writes 3
    [PipeEv.codeDone, PipeEv.dispose, PipeEv.timerFire] (by decide)⟩

/-! ## Claim C10 — the slide index always addresses an existing slide -/

theorem clamp_le_of_le (v lo hi : Int) (h : lo ≤ hi) :
    lo ≤ clamp v lo hi ∧ clamp v lo hi ≤ hi := by
  unfold clamp
  split
  · omega
  · split <;> omega

theorem groupLines_ne_nil (ls : List (List Char)) : groupLines ls ≠ [] := by
  induction ls with
  | nil => simp [groupLines]
  | cons l ls ih =>
    rw [groupLines]
    split
    · simp
    · cases hq : groupLines ls with
      | nil => simp
      | cons g gs => simp

theorem parseSlides_length (md : String) :
    (parseSlides md).length = (groupLines (splitLines md.data)).length := by
  unfold parseSlides splitSegments
  rw [List.length_mapIdx, List.length_map]

theorem parseSlides_length_pos (md : String) : 1 ≤ (parseSlides md).length := by
  rw [parseSlides_length]
  have h := groupLines_ne_nil (splitLines md.data)
  cases hq : groupLines (splitLines md.data) with
  | nil => exact absurd hq h
  | cons g gs => simp

theorem maxSlideIndex_eq (md : String) :
    maxSlideIndex md = ((parseSlides md).length : Int) - 1 := by
  have := parseSlides_length_pos md
  unfold maxSlideIndex
  omega

/-- C10: compilation always yields at least one slide, and after each of
`goToSlide`, `nextSlide`, `previousSlide` and the clamp-on-recompile
effect the current index lies in `[0, max(0, slides.length - 1)]` — in
particular it addresses an existing slide. -/
theorem c10_index_invariant (md : String) (current requested : Int) :
    1 ≤ (parseSlides md).length ∧
    (0 ≤ goToSlideIndex (maxSlideIndex md) current requested ∧
      goToSlideIndex (maxSlideIndex md) current requested < (parseSlides md).length) ∧
    (0 ≤ nextSlideIndex (maxSlideIndex md) current ∧
      nextSlideIndex (maxSlideIndex md) current < (parseSlides md).length) ∧
    (0 ≤ previousSlideIndex (maxSlideIndex md) current ∧
      previousSlideIndex (maxSlideIndex md) current < (parseSlides md).length) ∧
    (0 ≤ recompileClampIndex md current ∧
      recompileClampIndex md current < (parseSlides md).length) := by
  have hl := parseSlides_length_pos md
  have hm := maxSlideIndex_eq md
  have h0 : (0 : Int) ≤ maxSlideIndex md := by omega
  have h1 := clamp_le_of_le requested 0 (maxSlideIndex md) h0
  have h2 := clamp_le_of_le (current + 1) 0 (maxSlideIndex md) h0
  have h3 := clamp_le_of_le (current - 1) 0 (maxSlideIndex md) h0
  have h4 := clamp_le_of_le current 0 (maxSlideIndex md) h0
  unfold goToSlideIndex nextSlideIndex previousSlideIndex recompileClampIndex
  refine ⟨hl, ⟨h1.1, ?_⟩, ⟨h2.1, ?_⟩, ⟨h3.1, ?_⟩, ⟨h4.1, ?_⟩⟩ <;> omega

/-! ## Claim C8 — placeholder data attributes decode to the fence text -/

/-- C8: percent-decoding the encoded data attribute of the placeholder
emitted by the HTML renderer — through `decodeDatasetValue`, exactly as
the pipeline reads it — recovers the original fence content byte for
byte, for every fence text (including the empty string and strings with
quotes) and every language tag. -/
theorem c8_placeholder_roundtrip (text : String) (lang : Option String) :
    decodeDatasetValue (rendererCode text lang).dataAttr = text ∧
    decodeDatasetValue (some (jsEncodeURIComponent text)) = text := by
  constructor
  · simp only [rendererCode]
    split
    · simpa only [HtmlPart.dataAttr] using decodeDatasetValue_encode text
    · simpa only [HtmlPart.dataAttr] using decodeDatasetValue_encode text
  · exact decodeDatasetValue_encode text

/-! ## Claim C3 — validation of broadcast payloads -/

/-- C3 counterexample: a message whose `currentSlide` is the negative
number `-5` fails the claimed payload-shape check, yet the handler still
applies the update — the local state changes. -/
theorem c3_counterexample :
    specPayloadCheck (some ⟨"NEW", -5, "hacker"⟩) = false ∧
    applyBroadcast "a" ⟨"orig", 0, ThemeId.corporate⟩
        (some ⟨"b", some ⟨"NEW", -5, "hacker"⟩⟩) ≠
      (⟨"orig", 0, ThemeId.corporate⟩ : LocalState) := by
  decide

/-- C3 (amended): a state received over the broadcast channel either
leaves the local state unchanged, or the payload was non-null, from
another context, carried a non-null state whose `themeId` is a known
theme — the only checks the handler performs — and the update sets the
markdown and theme verbatim while the slide index is clamped (against
the bound of the markdown held *before* the update); in particular an
applied index is never negative.  Neither the markdown nor a
non-negativity condition on `currentSlide` is validated on this path. -/
theorem c3_amended (localId : String) (st : LocalState) (msg : Option RawMessage) :
    (applyBroadcast localId st msg = st ∨
      ∃ m s t, msg = some m ∧ m.sourceId ≠ localId ∧ m.state = some s ∧
        themeOfString s.themeId = some t ∧
        applyBroadcast localId st msg =
          { markdown := s.markdown
            currentSlide := clamp s.currentSlide 0 (maxSlideIndex st.markdown)
            themeId := t }) ∧
    (applyBroadcast localId st msg = st ∨
      0 ≤ (applyBroadcast localId st msg).currentSlide) := by
  match msg with
  | none => exact ⟨Or.inl rfl, Or.inl rfl⟩
  | some m =>
    by_cases he : m.sourceId = localId
    · simp only [applyBroadcast, if_pos he]
      exact ⟨Or.inl trivial, Or.inl trivial⟩
    · match hs : m.state with
      | none =>
        simp only [applyBroadcast, if_neg he, hs]
        exact ⟨Or.inl trivial, Or.inl trivial⟩
      | some s =>
        match ht : themeOfString s.themeId with
        | none =>
          simp only [applyBroadcast, if_neg he, hs, ht]
          exact ⟨Or.inl trivial, Or.inl trivial⟩
        | some t =>
          have happ : applyBroadcast localId st (some m) =
              { markdown := s.markdown
                currentSlide := clamp s.currentSlide 0 (maxSlideIndex st.markdown)
                themeId := t } := by
            simp only [applyBroadcast, if_neg he, hs, ht, goToSlideIndex]
          refine ⟨Or.inr ⟨m, s, t, rfl, he, hs, ht, happ⟩, Or.inr ?_⟩
          rw [happ]
          have h0 : (0 : Int) ≤ maxSlideIndex st.markdown := by
            unfold maxSlideIndex; omega
          exact (clamp_le_of_le s.currentSlide 0 (maxSlideIndex st.markdown) h0).1

/-! ## Claim C7 — separator lines and slide counts -/

theorem groupLines_length_no_sep (ls : List (List Char))
    (h : ∀ l ∈ ls, isSeparatorLine l = false) : (groupLines ls).length = 1 := by
  induction ls with
  | nil => rfl
  | cons l ls ih =>
    rw [groupLines, if_neg (by simp [h l (List.mem_cons_self l ls)])]
    have h' := ih (fun x hx => h x (List.mem_cons_of_mem _ hx))
    cases hq : groupLines ls with
    | nil => exact absurd hq (groupLines_ne_nil ls)
    | cons g gs =>
      rw [hq] at h'
      simp only [List.length_cons] at h' ⊢
      omega

/-- C7: a document with no `---` separator line compiles to exactly one
slide, and `"# A\n---\n# B\n---\n# C"` compiles to exactly three slides
with titles `A`, `B`, `C` and ids `0`, `1`, `2`. -/
theorem c7_split_counts :
    (∀ md : String, (∀ l ∈ splitLines md.data, isSeparatorLine l = false) →
      (parseSlides md).length = 1) ∧
    (parseSlides "# A\n---\n# B\n---\n# C").length = 3 ∧
    (parseSlides "# A\n---\n# B\n---\n# C").map (fun s => (s.id, s.title)) =
      [(0, "A"), (1, "B"), (2, "C")] := by
  refine ⟨?_, by decide, by decide⟩
  intro md h
  rw [parseSlides_length]
  exact groupLines_length_no_sep _ h

/-- Witness: a separator-free document compiles to one slide. -/
theorem c7_witness : (parseSlides "hello world").length = 1 :=
  c7_split_counts.1 "hello world" (by decide)

/-! ## Claim C5 — speaker-note extraction -/

theorem slideNotesText_ne_empty (collected : List String) :
    slideNotesText collected ≠ "" := by
  unfold slideNotesText
  split
  · decide
  · assumption

theorem parseSlides_notes_map (md : String) :
    (parseSlides md).map (fun s => s.notes) =
      (splitSegments md).map (fun seg => slideNotesText (extractNotes seg).1) := by
  unfold parseSlides
  suffices H : ∀ (segs : List String) (f : Nat → String → Slide),
      (∀ i seg, (f i seg).notes = slideNotesText (extractNotes seg).1) →
      (segs.mapIdx f).map (fun s => s.notes) =
        segs.map (fun seg => slideNotesText (extractNotes seg).1) from
    H _ _ (fun _ _ => rfl)
  intro segs
  induction segs with
  | nil => intro f _; rfl
  | cons a as ih =>
    intro f hf
    rw [List.mapIdx_cons, List.map_cons, List.map_cons, hf,
      ih _ (fun i seg => hf (i + 1) seg)]

/-- C5 counterexample: with a `Note:` line appearing *before* a
`::: notes` block, the extracted notes are `"second\n\nfirst"` — the
block match comes first — not the source-order `"first\n\nsecond"`. -/
theorem c5_counterexample :
    (parseSlides "Note: first\n::: notes\nsecond\n:::").map (fun s => s.notes) =
      ["second\n\nfirst"] ∧
    ("second\n\nfirst" : String) ≠ "first\n\nsecond" := by
  decide

/-- C5 (amended): a slide's notes are the block-syntax matches in their
source order followed by the line-syntax matches in their source order
(the two passes of `extractNotes`), joined by one blank line; when no
notes are collected the notes field is the fixed placeholder, and it is
never the empty string. -/
theorem c5_amended (md : String) :
    (parseSlides md).map (fun s => s.notes) =
      (splitSegments md).map (fun seg => slideNotesText (extractNotes seg).1) ∧
    (∀ s ∈ parseSlides md, s.notes ≠ "") ∧
    (∀ seg : String, (extractNotes seg).1 = [] →
      slideNotesText (extractNotes seg).1 = NO_NOTES_PLACEHOLDER) := by
  refine ⟨parseSlides_notes_map md, ?_, ?_⟩
  · intro s hs
    have h1 : s.notes ∈ (parseSlides md).map (fun s => s.notes) :=
      List.mem_map_of_mem _ hs
    rw [parseSlides_notes_map md] at h1
    obtain ⟨seg, _, heq⟩ := List.mem_map.mp h1
    rw [← heq]
    exact slideNotesText_ne_empty _
  · intro seg h
    rw [h]
    decide

/-! ## Claim C2 — the deep-link codec round trip -/

theorem toDigitsCore_eq_decRepr (f : Nat) :
    ∀ (n : Nat) (ds : List Char), n < f →
      Nat.toDigitsCore 10 f n ds = decRepr n ++ ds := by
  induction f with
  | zero => intro n ds h; omega
  | succ f ih =>
    intro n ds h
    simp only [Nat.toDigitsCore]
    by_cases hz : n / 10 = 0
    · have hn : n < 10 := by omega
      rw [if_pos hz, decRepr, if_pos hn, Nat.mod_eq_of_lt hn]
      rfl
    · have hn : ¬ n < 10 := by omega
      have hstep : n / 10 < f := by
        have := Nat.div_lt_self (by omega : 0 < n) (by omega : 1 < 10)
        omega
      rw [if_neg hz, ih (n / 10) _ hstep]
      conv_rhs => rw [decRepr]
      rw [if_neg hn, List.append_assoc]
      rfl

theorem natRepr_eq_decRepr (n : Nat) : Nat.repr n = String.mk (decRepr n) := by
  unfold Nat.repr Nat.toDigits
  rw [toDigitsCore_eq_decRepr (n + 1) n [] (Nat.lt_succ_self n), List.append_nil]
  rfl

theorem decRepr_digits (n : Nat) : ∀ c ∈ decRepr n, '0' ≤ c ∧ c ≤ '9' := by
  induction n using Nat.strong_induction_on with
  | _ n ih =>
    rw [decRepr]
    split
    · rename_i hn
      have hd : ∀ m < 10, '0' ≤ Nat.digitChar m ∧ Nat.digitChar m ≤ '9' := by decide
      intro c hc
      simp only [List.mem_singleton] at hc
      exact hc ▸ hd n hn
    · rename_i hn
      intro c hc
      rcases List.mem_append.mp hc with h1 | h2
      · exact ih (n / 10) (Nat.div_lt_self (by omega) (by omega)) c h1
      · have hd : ∀ m < 10, '0' ≤ Nat.digitChar m ∧ Nat.digitChar m ≤ '9' := by decide
        simp only [List.mem_singleton] at h2
        exact h2 ▸ hd (n % 10) (Nat.mod_lt n (by omega))

theorem decRepr_ne_nil (n : Nat) : decRepr n ≠ [] := by
  rw [decRepr]
  split
  · simp
  · simp

theorem foldl_decRepr (n : Nat) : ∀ a : Nat,
    (decRepr n).foldl (fun acc c => acc * 10 + (c.toNat - 48)) a =
      a * 10 ^ (decRepr n).length + n := by
  induction n using Nat.strong_induction_on with
  | _ n ih =>
    intro a
    rw [decRepr]
    split
    · rename_i hn
      have hd : ∀ m < 10, (Nat.digitChar m).toNat - 48 = m := by decide
      simp only [List.foldl_cons, List.foldl_nil, List.length_singleton, pow_one]
      rw [hd n hn]
    · rename_i hn
      rw [List.foldl_append]
      rw [ih (n / 10) (Nat.div_lt_self (by omega) (by omega)) a]
      have hd : ∀ m < 10, (Nat.digitChar m).toNat - 48 = m := by decide
      simp only [List.foldl_cons, List.foldl_nil, List.length_append,
        List.length_singleton]
      rw [hd (n % 10) (Nat.mod_lt n (by omega))]
      rw [pow_succ]
      have hdm := Nat.div_add_mod n 10
      ring_nf
      omega

theorem digit_not_jsWs (c : Char) (h1 : '0' ≤ c) (h2 : c ≤ '9') : isJsWs c = false := by
  have hlo : 48 ≤ c.toNat := h1
  have hhi : c.toNat ≤ 57 := h2
  unfold isJsWs
  have e1 : c ≠ ' ' := by intro h; subst h; simp at hlo
  have e2 : c ≠ '\t' := by intro h; subst h; simp at hlo
  have e3 : c ≠ '\n' := by intro h; subst h; simp at hlo
  have e4 : c ≠ '\r' := by intro h; subst h; simp at hlo
  have e5 : c ≠ '\x0b' := by intro h; subst h; simp at hlo
  have e6 : c ≠ '\x0c' := by intro h; subst h; simp at hlo
  simp [e1, e2, e3, e4, e5, e6]

theorem jsSignSplit_of_digit {c : Char} (cs : List Char) (h1 : '0' ≤ c) :
    jsSignSplit (c :: cs) = (c :: cs, 1) := by
  have hcp : c ≠ '+' := fun h => absurd h1 (by rw [h]; decide)
  have hcm : c ≠ '-' := fun h => absurd h1 (by rw [h]; decide)
  unfold jsSignSplit
  split
  next r heq => exact absurd (List.cons.inj heq).1 hcp
  next r heq => exact absurd (List.cons.inj heq).1 hcm
  next => rfl

theorem takeWhile_digits_of_all (l : List Char) (h : ∀ x ∈ l, '0' ≤ x ∧ x ≤ '9') :
    l.takeWhile (fun x => decide ('0' ≤ x ∧ x ≤ '9')) = l := by
  induction l with
  | nil => rfl
  | cons y ys ihy =>
    have hy := h y (List.mem_cons_self y ys)
    have hcond : decide ('0' ≤ y ∧ y ≤ '9') = true := by
      simp [hy.1, hy.2]
    rw [List.takeWhile_cons, hcond, if_pos rfl,
      ihy (fun x hx => h x (List.mem_cons_of_mem _ hx))]

theorem jsParseInt_natRepr (m : Nat) : jsParseInt (Nat.repr m) = some (m : Int) := by
  rw [natRepr_eq_decRepr]
  unfold jsParseInt
  have hdig := decRepr_digits m
  have hne := decRepr_ne_nil m
  have hdrop : (String.mk (decRepr m)).data.dropWhile isJsWs = decRepr m := by
    show (decRepr m).dropWhile isJsWs = decRepr m
    cases hq : decRepr m with
    | nil => rfl
    | cons c cs =>
      rw [List.dropWhile_cons]
      have hc := hdig c (hq ▸ List.mem_cons_self c cs)
      rw [digit_not_jsWs c hc.1 hc.2]
      simp
  rw [hdrop]
  cases hq : decRepr m with
  | nil => exact absurd hq hne
  | cons c cs =>
    have hc := hdig c (hq ▸ List.mem_cons_self c cs)
    rw [jsSignSplit_of_digit cs hc.1]
    have htake := takeWhile_digits_of_all (c :: cs) (fun x hx => hdig x (hq ▸ hx))
    simp only [htake]
    rw [if_neg (by simp)]
    have hfold := foldl_decRepr m 0
    rw [hq] at hfold
    simp only [Nat.zero_mul, Nat.zero_add] at hfold
    rw [hfold]
    simp

theorem getParam_setParam_self (l : List (String × String)) (k v : String) :
    getParam (setParam l k v) k = some v := by
  induction l with
  | nil => simp [setParam, getParam, List.find?]
  | cons p ps ih =>
    rw [setParam]
    by_cases h : p.1 = k
    · rw [if_pos h]
      simp [getParam, List.find?]
    · rw [if_neg h]
      unfold getParam
      rw [List.find?_cons_of_neg _ (by simpa using h)]
      exact ih

theorem getParam_setParam_other (l : List (String × String)) (k k' v : String)
    (h : k ≠ k') : getParam (setParam l k' v) k = getParam l k := by
  have hkk : ¬ (k' = k) := fun hh => h hh.symm
  induction l with
  | nil =>
    simp [setParam, getParam, List.find?, decide_eq_false hkk]
  | cons p ps ih =>
    rw [setParam]
    by_cases hp : p.1 = k'
    · rw [if_pos hp]
      unfold getParam
      rw [List.find?_cons_of_neg _ (by simp [hkk])]
      have hpk : ¬ p.1 = k := by rw [hp]; exact fun hh => h hh.symm
      rw [List.find?_cons_of_neg _ (by simpa using hpk)]
      -- find? over the filtered tail: entries with key k' removed, others intact
      clear ih
      induction ps with
      | nil => rfl
      | cons q qs ihq =>
        rw [List.filter_cons]
        by_cases hq : q.1 = k'
        · rw [if_neg (by simpa using hq)]
          rw [List.find?_cons_of_neg _ (by simp [hq, hkk])]
          exact ihq
        · rw [if_pos (by simpa using hq)]
          by_cases hqk : q.1 = k
          · rw [List.find?_cons_of_pos _ (by simpa using hqk),
              List.find?_cons_of_pos _ (by simpa using hqk)]
          · rw [List.find?_cons_of_neg _ (by simpa using hqk),
              List.find?_cons_of_neg _ (by simpa using hqk)]
            exact ihq
    · rw [if_neg hp]
      by_cases hpk : p.1 = k
      · unfold getParam
        rw [List.find?_cons_of_pos _ (by simpa using hpk),
          List.find?_cons_of_pos _ (by simpa using hpk)]
      · unfold getParam
        rw [List.find?_cons_of_neg _ (by simpa using hpk),
          List.find?_cons_of_neg _ (by simpa using hpk)]
        exact ih

theorem getParam_deleteParam_self (l : List (String × String)) (k : String) :
    getParam (deleteParam l k) k = none := by
  induction l with
  | nil => rfl
  | cons p ps ih =>
    rw [deleteParam, List.filter_cons]
    by_cases h : p.1 = k
    · rw [if_neg (by simpa using h)]
      exact ih
    · rw [if_pos (by simpa using h)]
      unfold getParam
      rw [List.find?_cons_of_neg _ (by simpa using h)]
      exact ih

theorem getParam_deleteParam_other (l : List (String × String)) (k k' : String)
    (h : k ≠ k') : getParam (deleteParam l k') k = getParam l k := by
  have hkk : ¬ (k' = k) := fun hh => h hh.symm
  induction l with
  | nil => rfl
  | cons p ps ih =>
    rw [deleteParam, List.filter_cons]
    by_cases hp : p.1 = k'
    · rw [if_neg (by simpa using hp)]
      unfold getParam
      rw [List.find?_cons_of_neg _ (by simp [hp, hkk])]
      exact ih
    · rw [if_pos (by simpa using hp)]
      by_cases hpk : p.1 = k
      · unfold getParam
        rw [List.find?_cons_of_pos _ (by simpa using hpk),
          List.find?_cons_of_pos _ (by simpa using hpk)]
      · unfold getParam
        rw [List.find?_cons_of_neg _ (by simpa using hpk),
          List.find?_cons_of_neg _ (by simpa using hpk)]
        exact ih

/-- C2: encoding a deep-link state into the fragment (the hash-writing
effect, merging into any pre-existing fragment parameters) and decoding
it back yields the state exactly; and the fragment
`slide=2&theme=hacker&presenter=1` decodes to
`{slideIndex := 1, themeId := hacker, presenter := true}`. -/
theorem c2_deeplink_roundtrip :
    (∀ (prev : List (String × String)) (st : HashState),
      readHashState (writeHashParams prev st.slideIndex st.themeId st.presenter) = st) ∧
    readHashState (parseFragment "slide=2&theme=hacker&presenter=1") =
      { slideIndex := 1, themeId := ThemeId.hacker, presenter := true } := by
  refine ⟨?_, by decide⟩
  intro prev st
  obtain ⟨si, ti, pr⟩ := st
  have hts : toString (si + 1) = Nat.repr (si + 1) := rfl
  unfold writeHashParams
  by_cases hp : pr
  · rw [if_pos hp]
    have hslide : getParam (setParam (setParam (setParam prev "slide"
        (toString (si + 1))) "theme" ti.key) "presenter" "1") "slide" =
        some (toString (si + 1)) := by
      rw [getParam_setParam_other _ _ _ _ (by decide),
        getParam_setParam_other _ _ _ _ (by decide), getParam_setParam_self]
    have htheme : getParam (setParam (setParam (setParam prev "slide"
        (toString (si + 1))) "theme" ti.key) "presenter" "1") "theme" =
        some ti.key := by
      rw [getParam_setParam_other _ _ _ _ (by decide), getParam_setParam_self]
    have hpres : getParam (setParam (setParam (setParam prev "slide"
        (toString (si + 1))) "theme" ti.key) "presenter" "1") "presenter" =
        some "1" := by
      rw [getParam_setParam_self]
    unfold readHashState
    rw [hslide, htheme, hpres]
    simp only [Option.getD_some, hts, jsParseInt_natRepr, themeOfString_key]
    rw [hp]
    simp only [HashState.mk.injEq]
    refine ⟨?_, trivial, by decide⟩
    have : ((si + 1 : Nat) : Int) - 1 = (si : Int) := by push_cast; ring
    rw [this]
    omega
  · rw [if_neg hp]
    have hslide : getParam (deleteParam (setParam (setParam prev "slide"
        (toString (si + 1))) "theme" ti.key) "presenter") "slide" =
        some (toString (si + 1)) := by
      rw [getParam_deleteParam_other _ _ _ (by decide),
        getParam_setParam_other _ _ _ _ (by decide), getParam_setParam_self]
    have htheme : getParam (deleteParam (setParam (setParam prev "slide"
        (toString (si + 1))) "theme" ti.key) "presenter") "theme" =
        some ti.key := by
      rw [getParam_deleteParam_other _ _ _ (by decide), getParam_setParam_self]
    have hpres : getParam (deleteParam (setParam (setParam prev "slide"
        (toString (si + 1))) "theme" ti.key) "presenter") "presenter" = none := by
      rw [getParam_deleteParam_self]
    unfold readHashState
    rw [hslide, htheme, hpres]
    simp only [Option.getD_some, hts, jsParseInt_natRepr, themeOfString_key]
    have hprf : pr = false := by simpa using hp
    rw [hprf]
    simp only [HashState.mk.injEq]
    refine ⟨?_, trivial, by decide⟩
    have : ((si + 1 : Nat) : Int) - 1 = (si : Int) := by push_cast; ring
    rw [this]
    omega

/-! ## Claim C9 — highlight-failure fallback -/

/-- C9: a code placeholder whose highlighting-engine invocation throws
is replaced by the plain preformatted block whose text content is
exactly the original decoded source text, and the thrown error is not
surfaced: the resulting subtree does not depend on `err` at all. -/
theorem c9_highlight_failure_fallback
    (f : String → String → String → Except String String)
    (parseHtml : String → Option DomNode) (theme : String) (sln : Bool)
    (text rawLang lang err : String)
    (hlang : resolveLanguage (some (decodeDatasetValue (some rawLang))) = some lang)
    (hf : f text lang theme = Except.error err) :
    enhanceCodeBlocks (some f) parseHtml theme sln
        (.elem "DIV" [] [] [.elem "PRE" ["md-code"]
          [("data-lang", rawLang), ("data-code", jsEncodeURIComponent text)] []]) =
      .elem "DIV" [] [] [plainPre text] ∧
    textContent (plainPre text) = text := by
  have hattr1 : getAttr [("data-lang", rawLang), ("data-code", jsEncodeURIComponent text)]
      "data-code" = some (jsEncodeURIComponent text) := by
    unfold getAttr
    rw [List.find?_cons_of_neg _ (by simp), List.find?_cons_of_pos _ (by simp)]
    rfl
  have hattr2 : getAttr [("data-lang", rawLang), ("data-code", jsEncodeURIComponent text)]
      "data-lang" = some rawLang := by
    unfold getAttr
    rw [List.find?_cons_of_pos _ (by simp)]
    rfl
  have hph : isCodePlaceholder "PRE" ["md-code"] = true := by decide
  constructor
  · rw [enhanceCodeBlocks, enhanceCodeList, enhanceCodeList, enhanceCodeNode,
      if_pos hph]
    simp only [processCodePlaceholder, hattr1, hattr2, decodeDatasetValue_encode,
      hlang, hf]
  · simp [plainPre, textContent, textContentList, String.append_empty]

/-- Witness: a throwing engine on a `ts` code block holding `hello`
falls back to the plain block whose text is exactly `hello`. -/
theorem c9_witness :
    resolveLanguage (some (decodeDatasetValue (some (jsEncodeURIComponent "ts")))) =
        some "typescript" ∧
    (enhanceCodeBlocks (some (fun _ _ _ => (Except.error "boom" : Except String String)))
        (fun _ => none) "github-dark" true
        (.elem "DIV" [] [] [.elem "PRE" ["md-code"]
          [("data-lang", jsEncodeURIComponent "ts"),
           ("data-code", jsEncodeURIComponent "hello")] []]) =
      .elem "DIV" [] [] [plainPre "hello"] ∧
      textContent (plainPre "hello") = "hello") :=
  ⟨by rw [decodeDatasetValue_encode]; decide,
   c9_highlight_failure_fallback (fun _ _ _ => Except.error "boom")
     (fun _ => none) "github-dark" true "hello" (jsEncodeURIComponent "ts")
     "typescript" "boom" (by rw [decodeDatasetValue_encode]; decide) rfl⟩

/-! ## Claim C4 — which text nodes the math stage protects -/

/-- C4 counterexample: in `div > code > span > "$x$"` the text node has
a `code` *ancestor* but its direct parent is the `span`, so
`shouldSkipMathNode` does not protect it: the math stage rewrites the
`$x$` into a math node — the text `$x$` is gone from the tree. -/
theorem c4_counterexample :
    collectTexts (enhanceMath (fun _ e => e)
        (.elem "DIV" [] [] [.elem "CODE" [] []
          [.elem "SPAN" [] [] [.text "$x$"]]])) = ["x"] ∧
    collectTexts (.elem "DIV" [] [] [.elem "CODE" [] []
        [.elem "SPAN" [] [] [.text "$x$"]]]) = ["$x$"] ∧
    shouldSkipMathNode [("SPAN", []), ("CODE", []), ("DIV", [])] = false := by
  decide

theorem skippedTextsList_nil (anc : List (String × List String)) :
    skippedTextsList anc [] = [] := rfl

theorem skippedTextsList_cons (anc : List (String × List String)) (n : DomNode)
    (ns : List DomNode) :
    skippedTextsList anc (n :: ns) = skippedTexts anc n ++ skippedTextsList anc ns := rfl

theorem skippedTexts_text (anc : List (String × List String)) (s : String) :
    skippedTexts anc (.text s) = if shouldSkipMathNode anc then [s] else [] := rfl

theorem skippedTexts_elem (anc : List (String × List String)) (t : String)
    (cs : List String) (a : List (String × String)) (ch : List DomNode) :
    skippedTexts anc (.elem t cs a ch) = skippedTextsList ((t, cs) :: anc) ch := rfl

theorem skippedTextsList_append (anc : List (String × List String))
    (xs ys : List DomNode) :
    skippedTextsList anc (xs ++ ys) =
      skippedTextsList anc xs ++ skippedTextsList anc ys := by
  induction xs with
  | nil => rfl
  | cons n ns ih =>
    rw [List.cons_append, skippedTextsList_cons, skippedTextsList_cons, ih,
      List.append_assoc]

theorem shouldSkip_cons_false (t' : String) (cs' : List String)
    (anc : List (String × List String))
    (h : shouldSkipMathNode anc = false)
    (h1 : cs'.contains "katex" = false)
    (h2 : (t' = "PRE" || t' = "CODE" || t' = "SCRIPT" || t' = "STYLE" ||
      t' = "TEXTAREA" || t' = "SVG") = false) :
    shouldSkipMathNode ((t', cs') :: anc) = false := by
  match anc with
  | [] => simp [shouldSkipMathNode] at h
  | (tg, cl) :: rest =>
    rw [shouldSkipMathNode] at h
    rw [shouldSkipMathNode]
    simp only [Bool.or_eq_false_iff] at h ⊢
    refine ⟨?_, by simpa using h2⟩
    rw [List.any_cons]
    simp only [Bool.or_eq_false_iff]
    exact ⟨by simpa using h1, h.1⟩

theorem enhanceMathNode_text (render : Bool → String → String)
    (anc : List (String × List String)) (s : String) :
    enhanceMathNode render anc (.text s) =
      if shouldSkipMathNode anc then [.text s] else enhanceMathText render s := rfl

theorem enhanceMathNode_elem (render : Bool → String → String)
    (anc : List (String × List String)) (t : String) (cs : List String)
    (a : List (String × String)) (ch : List DomNode) :
    enhanceMathNode render anc (.elem t cs a ch) =
      [.elem t cs a (enhanceMathList render ((t, cs) :: anc) ch)] := rfl

theorem enhanceMathList_nil (render : Bool → String → String)
    (anc : List (String × List String)) : enhanceMathList render anc [] = [] := rfl

theorem enhanceMathList_cons (render : Bool → String → String)
    (anc : List (String × List String)) (n : DomNode) (ns : List DomNode) :
    enhanceMathList render anc (n :: ns) =
      enhanceMathNode render anc n ++ enhanceMathList render anc ns := rfl

theorem skippedTextsList_mathFragment (render : Bool → String → String)
    (anc : List (String × List String)) (h : shouldSkipMathNode anc = false)
    (fuel : Nat) :
    ∀ l : List Char, skippedTextsList anc (mathFragmentGoF render fuel l) = [] := by
  induction fuel with
  | zero => intro l; rfl
  | succ fuel ih =>
    intro l
    rw [mathFragmentGoF]
    cases hm : nextMathMatch l with
    | none =>
      by_cases hl : l = []
      · rw [if_pos hl, skippedTextsList_nil]
      · rw [if_neg hl, skippedTextsList_cons, skippedTextsList_nil,
          skippedTexts_text, if_neg (by simp [h])]
        rfl
    | some t =>
      obtain ⟨pre, dm, expr, after⟩ := t
      have hmath : shouldSkipMathNode ((if dm then "DIV" else "SPAN",
          [if dm then "math-display" else "math-inline"]) :: anc) = false := by
        apply shouldSkip_cons_false _ _ _ h
        · cases dm <;> decide
        · cases dm <;> decide
      by_cases hpre : pre = [] <;>
        simp [hpre, skippedTextsList_append, skippedTextsList_cons,
          skippedTextsList_nil, skippedTexts_elem, skippedTexts_text, ih, hmath, h]

mutual

theorem enhanceMath_skipped_node (render : Bool → String → String)
    (anc : List (String × List String)) (n : DomNode) :
    skippedTextsList anc (enhanceMathNode render anc n) = skippedTexts anc n := by
  match n with
  | .text s =>
    rw [enhanceMathNode_text]
    by_cases h : shouldSkipMathNode anc
    · rw [if_pos h, skippedTextsList_cons, skippedTextsList_nil, List.append_nil]
    · rw [if_neg h]
      have hb : shouldSkipMathNode anc = false := by simpa using h
      unfold enhanceMathText
      cases hm : nextMathMatch s.data with
      | none =>
        rw [skippedTextsList_cons, skippedTextsList_nil, List.append_nil]
      | some t =>
        unfold mathFragmentGo
        rw [skippedTextsList_mathFragment render anc hb _ s.data,
          skippedTexts_text, if_neg (by simp [hb])]
  | .elem t cs a ch =>
    rw [enhanceMathNode_elem, skippedTextsList_cons, skippedTextsList_nil,
      List.append_nil, skippedTexts_elem, skippedTexts_elem]
    exact enhanceMath_skipped_list render ((t, cs) :: anc) ch

theorem enhanceMath_skipped_list (render : Bool → String → String)
    (anc : List (String × List String)) (l : List DomNode) :
    skippedTextsList anc (enhanceMathList render anc l) = skippedTextsList anc l := by
  match l with
  | [] => rfl
  | n :: ns =>
    rw [enhanceMathList_cons, skippedTextsList_append,
      enhanceMath_skipped_node render anc n, enhanceMath_skipped_list render anc ns,
      skippedTextsList_cons]

end

/-- C4 (amended): the math stage protects exactly the text nodes whose
*direct parent* is a `code`/`pre`/`script`/`style`/`textarea`/`svg`
element or that have an ancestor carrying already-rendered math output
(`.katex`): the list of protected text nodes, in document order, is
unchanged by `enhanceMath` for every tree and every math engine. -/
theorem c4_amended (render : Bool → String → String) (root : DomNode) :
    skippedTextsRoot (enhanceMath render root) = skippedTextsRoot root := by
  match root with
  | .text s => rfl
  | .elem t cs a ch =>
    rw [enhanceMath, skippedTextsRoot, skippedTextsRoot]
    exact enhanceMath_skipped_list render [(t, cs)] ch

end MD
